import Mathlib

/-!
Verification of the metric tensor core of the pragmatic mesh-adaptation
library (src/include/MetricTensor.h).

The C++ code stores a symmetric d x d matrix (d in {2,3}) of a floating
point element type and operates on it through the dense eigensolver of the
Eigen library.  The embedding below models the element type as an abstract
linear ordered field (instantiated at the real numbers in the theorems,
idealising IEEE doubles as exact reals), and models each call to
Eigen::EigenSolver relationally: on a symmetric input the solver returns an
exact orthogonal eigendecomposition (columns of V are eigenvectors, so that
M = V * diagonal ev * V^T with V^T * V = 1); on other inputs the real parts
it returns are left unconstrained.  Matrix buffers (real_t pointers) are
modelled as functions from naturals, so the 2x2 / 3x3 dimension dispatch of
the source can be stated faithfully.
-/

namespace Pragmatic

open Matrix BigOperators Finset

variable {α : Type} [LinearOrderedField α]

/-- Idealised contract of Eigen::EigenSolver as used by the source: the code
reads the real parts of eigenvalues and eigenvectors; on a symmetric input
these form an exact orthogonal eigendecomposition with columns of V as
eigenvectors.  On a non-symmetric input the real parts are unconstrained. -/
def EigenOut {d : ℕ} (M : Matrix (Fin d) (Fin d) α) (ev : Fin d → α)
    (V : Matrix (Fin d) (Fin d) α) : Prop :=
  Mᵀ = M → Vᵀ * V = 1 ∧ M = V * Matrix.diagonal ev * Vᵀ

/-- Quadratic form v^T M v of a matrix, the value deciding metric edge
lengths (spec: length of e is sqrt(e^T M e)). -/
def quadForm {d : ℕ} (M : Matrix (Fin d) (Fin d) α) (v : Fin d → α) : α :=
  v ⬝ᵥ (M *ᵥ v)

/-- Symmetric positive definite matrices, the legal nonzero states of a
metric tensor. -/
def PosDefM {d : ℕ} (M : Matrix (Fin d) (Fin d) α) : Prop :=
  Mᵀ = M ∧ ∀ v : Fin d → α, v ≠ 0 → 0 < quadForm M v

/-- Recomposition V * |Lambda| * V^T used by positive_definiteness
(MetricTensor.h lines 148 and 167): eigenvalues are replaced by their
absolute values and the matrix is rebuilt. -/
def pdCore {d : ℕ} (ev : Fin d → α) (V : Matrix (Fin d) (Fin d) α) :
    Matrix (Fin d) (Fin d) α :=
  V * Matrix.diagonal (fun k => |ev k|) * Vᵀ

/-- View of a raw component buffer as the 2x2 matrix the source reads
(row-major entries 0..3). -/
def toMat2 (buf : ℕ → α) : Matrix (Fin 2) (Fin 2) α :=
  !![buf 0, buf 1; buf 2, buf 3]

/-- View of a raw component buffer as the 3x3 matrix the source reads
(row-major entries 0..8). -/
def toMat3 (buf : ℕ → α) : Matrix (Fin 3) (Fin 3) α :=
  !![buf 0, buf 1, buf 2; buf 3, buf 4, buf 5; buf 6, buf 7, buf 8]

/-- Writing a 2x2 matrix back into the first four entries of a buffer
(the final copy loop of the 2x2 branches). -/
def write2 (buf : ℕ → α) (M : Matrix (Fin 2) (Fin 2) α) : ℕ → α :=
  fun i =>
    if i = 0 then M 0 0 else if i = 1 then M 0 1 else
    if i = 2 then M 1 0 else if i = 3 then M 1 1 else buf i

/-- Writing a 3x3 matrix back into the first nine entries of a buffer
(the final copy loop of the 3x3 branches). -/
def write3 (buf : ℕ → α) (M : Matrix (Fin 3) (Fin 3) α) : ℕ → α :=
  fun i =>
    if i = 0 then M 0 0 else if i = 1 then M 0 1 else if i = 2 then M 0 2 else
    if i = 3 then M 1 0 else if i = 4 then M 1 1 else if i = 5 then M 1 2 else
    if i = 6 then M 2 0 else if i = 7 then M 2 1 else if i = 8 then M 2 2 else buf i

/-- Enforcement of positive definiteness, MetricTensor.h lines 133-172.
The source dispatches on dimension==2 and otherwise runs the 3x3 branch
unconditionally; each branch returns unchanged on the zero matrix and
otherwise rebuilds V * |Lambda| * V^T from the eigensolver output. -/
def positive_definiteness (dimension : ℕ) (buf out : ℕ → α) : Prop :=
  if dimension = 2 then
    (toMat2 buf = 0 ∧ out = buf) ∨
    (toMat2 buf ≠ 0 ∧ ∃ ev V, EigenOut (toMat2 buf) ev V ∧
      out = write2 buf (pdCore ev V))
  else
    (toMat3 buf = 0 ∧ out = buf) ∨
    (toMat3 buf ≠ 0 ∧ ∃ ev V, EigenOut (toMat3 buf) ev V ∧
      out = write3 buf (pdCore ev V))

/-- Isotropic variant, MetricTensor.h lines 175-217: in the 2x2 branch both
eigenvalues are flattened to the smaller absolute value before
recomposition; the 3x3 branch is identical to the anisotropic variant. -/
def positive_definiteness_iso (dimension : ℕ) (buf out : ℕ → α) : Prop :=
  if dimension = 2 then
    (toMat2 buf = 0 ∧ out = buf) ∨
    (toMat2 buf ≠ 0 ∧ ∃ ev V, EigenOut (toMat2 buf) ev V ∧
      out = write2 buf
        (V * Matrix.diagonal (fun _ => min |ev 0| |ev 1|) * Vᵀ))
  else
    (toMat3 buf = 0 ∧ out = buf) ∨
    (toMat3 buf ≠ 0 ∧ ∃ ev V, EigenOut (toMat3 buf) ev V ∧
      out = write3 buf (pdCore ev V))

/-- Spectral decomposition query, MetricTensor.h lines 428-483, at the level
of the stored matrix: on the zero matrix both outputs are filled with
zeros and no solver runs; otherwise D receives the absolute values of the
real parts of the eigenvalues and the eigenvector matrix is exported
transposed, so its rows are the eigenvectors. -/
def eigen_decomp {d : ℕ} (M : Matrix (Fin d) (Fin d) α) (D : Fin d → α)
    (Vout : Matrix (Fin d) (Fin d) α) : Prop :=
  (M = 0 ∧ D = 0 ∧ Vout = 0) ∨
  (M ≠ 0 ∧ ∃ ev V, EigenOut M ev V ∧ D = (fun k => |ev k|) ∧ Vout = Vᵀ)

/-- Recomposition from a (D, V) pair, MetricTensor.h lines 485-503:
m[i,j] = sum_k |D k| * V[k,i] * V[k,j], rows of V as eigenvectors. -/
def eigen_undecomp {d : ℕ} (D : Fin d → α) (V : Matrix (Fin d) (Fin d) α) :
    Matrix (Fin d) (Fin d) α :=
  Matrix.of fun i j => ∑ k, |D k| * V k i * V k j

/-- Uniform scaling, MetricTensor.h lines 389-392: every one of the
dimension*dimension stored components is multiplied by the factor. -/
def scale (dimension : ℕ) (s : α) (buf : ℕ → α) : ℕ → α :=
  fun i => if i < dimension * dimension then buf i * s else buf i

/-- Iterated minimum of the entries of a vector, as computed by the loops
seeding with entry 0 in max_length (lines 410-412) and in the aspect-ratio
computations of constrain. -/
def vecMin {n : ℕ} {β : Type} [LinearOrder β] (D : Fin (n + 1) → β) : β :=
  Finset.univ.inf' Finset.univ_nonempty D

/-- Iterated maximum of the entries of a vector (min_length lines 421-423,
aspect-ratio denominators in constrain). -/
def vecMax {n : ℕ} {β : Type} [LinearOrder β] (D : Fin (n + 1) → β) : β :=
  Finset.univ.sup' Finset.univ_nonempty D

/-- average_length, MetricTensor.h lines 394-404: the eigenvalues are
averaged and sqrt(1/average) is returned.  The sqrt of the element type is
passed in (the source calls the libm sqrt). -/
def average_length {n : ℕ} {β : Type} [AddCommMonoid β] [One β] [Div β]
    [NatCast β] (sqrt : β → β) (D : Fin (n + 1) → β) : β :=
  sqrt (1 / ((∑ k, D k) / ((n + 1 : ℕ) : β)))

/-- max_length, MetricTensor.h lines 406-415: sqrt(1/min eigenvalue). -/
def max_length {n : ℕ} {β : Type} [LinearOrder β] [One β] [Div β]
    (sqrt : β → β) (D : Fin (n + 1) → β) : β :=
  sqrt (1 / vecMin D)

/-- min_length, MetricTensor.h lines 417-426: sqrt(1/max eigenvalue). -/
def min_length {n : ℕ} {β : Type} [LinearOrder β] [One β] [Div β]
    (sqrt : β → β) (D : Fin (n + 1) → β) : β :=
  sqrt (1 / vecMax D)

/-- NaN test on the upper triangle of the argument buffer, the guard at the
top of constrain (MetricTensor.h lines 226-229).  The element type is
abstract, so the isnan predicate of the floating point type is a
parameter. -/
def hasNaNUpper {d : ℕ} (isnan : α → Bool) (M : Matrix (Fin d) (Fin d) α) :
    Prop :=
  ∃ i j : Fin d, i ≤ j ∧ isnan (M i j) = true

/-- Aspect ratio min|ev| / max|ev| of an eigenvalue vector, used by
constrain to pick the reference tensor (lines 245-246 and 260-261). -/
def aspect {n : ℕ} (ev : Fin (n + 1) → α) : α :=
  vecMin (fun k => |ev k|) / vecMax (fun k => |ev k|)

/-- Whitening map F = sqrt(|Lambda|) * V built from the eigendecomposition
of the reference tensor, MetricTensor.h lines 309-311. -/
def whitenMap {d : ℕ} (s : Fin d → α) (V : Matrix (Fin d) (Fin d) α) :
    Matrix (Fin d) (Fin d) α :=
  Matrix.diagonal s * V

/-- Characterisation of the entrywise square roots of |ev| taken by
cwise().sqrt() when forming F. -/
def sqrtSpec {d : ℕ} (s ev : Fin d → α) : Prop :=
  ∀ k, 0 ≤ s k ∧ s k * s k = |ev k|

/-- Eigenvalue clamp of constrain, lines 323-328: with
perserved_small_edges each |eigenvalue| is replaced by max(1,.), otherwise
by min(1,.). -/
def clampEv {d : ℕ} (perserved_small_edges : Bool) (mu : Fin d → α) :
    Fin d → α :=
  fun k => if perserved_small_edges then max 1 |mu k| else min 1 |mu k|

/-- Pull-back Mc = F^T * (W * clamped * W^T) * F of the clamped whitened
tensor, MetricTensor.h line 330. -/
def whitenClamp {d : ℕ} (perserved_small_edges : Bool)
    (F W : Matrix (Fin d) (Fin d) α) (mu : Fin d → α) :
    Matrix (Fin d) (Fin d) α :=
  Fᵀ * (W * Matrix.diagonal (clampEv perserved_small_edges mu) * Wᵀ) * F

/-- Whitening, push-forward, eigen-clamp and pull-back of constrain (lines
300-369) once the reference Mr and the target Mi have been chosen: F is
built from a decomposition of Mr, the target is mapped by
F^{-T} . Mi . F^{-1}, eigen-clamped, and pulled back. -/
def constrainBody {d : ℕ} (Mr Mi : Matrix (Fin d) (Fin d) α)
    (perserved_small_edges : Bool) (Mc : Matrix (Fin d) (Fin d) α) : Prop :=
  ∃ evr Vr s mu W, EigenOut Mr evr Vr ∧ sqrtSpec s evr ∧
    EigenOut (((whitenMap s Vr)⁻¹)ᵀ * Mi * (whitenMap s Vr)⁻¹) mu W ∧
    Mc = whitenClamp perserved_small_edges (whitenMap s Vr) W mu

/-- Metric intersection, MetricTensor.h lines 225-372, at the level of the
stored matrices.  Control flow of the source: return unchanged if the
argument has a NaN in its upper triangle; return unchanged if the argument
matrix is zero; otherwise compare aspect ratios of the |eigenvalues| of
both tensors, take as reference the tensor with the larger aspect ratio
(the argument only on strict inequality), and run the whiten/clamp/pull
back pipeline. -/
def constrain {n : ℕ} (isnan : α → Bool)
    (Ms Mo : Matrix (Fin (n + 1)) (Fin (n + 1)) α)
    (perserved_small_edges : Bool)
    (Mc : Matrix (Fin (n + 1)) (Fin (n + 1)) α) : Prop :=
  (hasNaNUpper isnan Mo ∧ Mc = Ms) ∨
  (¬ hasNaNUpper isnan Mo ∧
    ((Mo = 0 ∧ Mc = Ms) ∨
     (Mo ≠ 0 ∧ ∃ ev1 V1 ev2 V2, EigenOut Ms ev1 V1 ∧ EigenOut Mo ev2 V2 ∧
       ((aspect ev2 > aspect ev1 ∧ constrainBody Mo Ms perserved_small_edges Mc) ∨
        (¬ aspect ev2 > aspect ev1 ∧ constrainBody Ms Mo perserved_small_edges Mc)))))

/-- Spectral decomposition query at the buffer level with the source's
dimension dispatch (lines 429, 454 and 480-482): dimensions other than 2
and 3 only emit a diagnostic and leave the output vectors as passed in. -/
def eigen_decomp_buf (dimension : ℕ) (buf Din Vin Dout Vout : ℕ → α) : Prop :=
  if dimension = 2 then
    ∃ (D2 : Fin 2 → α) (V2 : Matrix (Fin 2) (Fin 2) α), eigen_decomp (toMat2 buf) D2 V2 ∧
      Dout = (fun i => if i = 0 then D2 0 else if i = 1 then D2 1 else Din i) ∧
      Vout = write2 Vin V2
  else if dimension = 3 then
    ∃ (D3 : Fin 3 → α) (V3 : Matrix (Fin 3) (Fin 3) α), eigen_decomp (toMat3 buf) D3 V3 ∧
      Dout = (fun i => if i = 0 then D3 0 else if i = 1 then D3 1 else
        if i = 2 then D3 2 else Din i) ∧
      Vout = write3 Vin V3
  else
    Dout = Din ∧ Vout = Vin

/-- The stored state of a MetricTensor object: a dimension and an optional
component buffer (the buffer is NULL until the first initialisation). -/
structure MetricTensor (β : Type) where
  _dimension : ℕ
  _metric : Option (ℕ → β)

/-- Copy of the first dimension*dimension entries of an input buffer into a
fresh allocation. -/
def copyBuf (dimension : ℕ) (m : ℕ → α) : ℕ → α :=
  fun i => if i < dimension * dimension then m i else 0

/-- Raw (re)initialisation, MetricTensor.h lines 382-387: the dimension is
overwritten unconditionally, a fresh buffer is allocated and the
components are copied; no check and no positive-definiteness
enforcement. -/
def MetricTensor.set (_t : MetricTensor α) (dimension : ℕ) (m : ℕ → α) :
    MetricTensor α :=
  ⟨dimension, some (copyBuf dimension m)⟩

/-- set_metric, MetricTensor.h lines 116-130: on the first call the
dimension is fixed and storage allocated; on later calls a differing
dimension is fatal (exit(-1), modelled as the none result); then the
components are copied and positive_definiteness is applied to them. -/
def MetricTensor.set_metric (t : MetricTensor α) (dimension : ℕ) (m : ℕ → α)
    (r : Option (MetricTensor α)) : Prop :=
  match t._metric with
  | none => ∃ buf, positive_definiteness dimension (copyBuf dimension m) buf ∧
      r = some ⟨dimension, some buf⟩
  | some _ =>
      if t._dimension = dimension then
        ∃ buf, positive_definiteness dimension (copyBuf dimension m) buf ∧
          r = some ⟨t._dimension, some buf⟩
      else r = none

section Helpers

/-- Entrywise form of a recomposition V * diagonal f * V^T. -/
lemma VDVt_apply {d : ℕ} (V : Matrix (Fin d) (Fin d) α) (f : Fin d → α)
    (i j : Fin d) :
    (V * Matrix.diagonal f * Vᵀ) i j = ∑ k, f k * V i k * V j k := by
  rw [Matrix.mul_apply]
  refine Finset.sum_congr rfl fun k _ => ?_
  rw [Matrix.mul_diagonal, Matrix.transpose_apply]
  ring

/-- Congruence transport of quadratic forms. -/
lemma quadForm_congr {d : ℕ} (B M : Matrix (Fin d) (Fin d) α)
    (v : Fin d → α) : quadForm (Bᵀ * M * B) v = quadForm M (B *ᵥ v) := by
  unfold quadForm
  rw [Matrix.mul_assoc, ← Matrix.mulVec_mulVec, Matrix.dotProduct_mulVec,
    Matrix.vecMul_transpose, ← Matrix.mulVec_mulVec]

/-- Quadratic form of a diagonal matrix. -/
lemma quadForm_diagonal {d : ℕ} (f : Fin d → α) (v : Fin d → α) :
    quadForm (Matrix.diagonal f) v = ∑ k, f k * (v k * v k) := by
  unfold quadForm
  rw [Matrix.dotProduct]
  refine Finset.sum_congr rfl fun k _ => ?_
  rw [Matrix.mulVec_diagonal]
  ring

/-- Quadratic form of a recomposition V * diagonal f * V^T. -/
lemma quadForm_VDVt {d : ℕ} (V : Matrix (Fin d) (Fin d) α) (f : Fin d → α)
    (v : Fin d → α) :
    quadForm (V * Matrix.diagonal f * Vᵀ) v =
      ∑ k, f k * ((Vᵀ *ᵥ v) k * (Vᵀ *ᵥ v) k) := by
  have h : V * Matrix.diagonal f * Vᵀ = Vᵀᵀ * Matrix.diagonal f * Vᵀ := by
    rw [Matrix.transpose_transpose]
  rw [h, quadForm_congr, quadForm_diagonal]

/-- A vector has positive self inner product when it is nonzero. -/
lemma dotSelf_pos {d : ℕ} {v : Fin d → α} (hv : v ≠ 0) : 0 < v ⬝ᵥ v := by
  obtain ⟨i, hi⟩ := Function.ne_iff.mp hv
  refine Finset.sum_pos' (fun k _ => mul_self_nonneg (v k)) ?_
  exact ⟨i, Finset.mem_univ i, mul_self_pos.mpr hi⟩

/-- Columns of a matrix with orthonormal columns are nonzero. -/
lemma col_ne_zero {d : ℕ} {V : Matrix (Fin d) (Fin d) α}
    (horth : Vᵀ * V = 1) (k : Fin d) : (fun i => V i k) ≠ 0 := by
  intro h
  have h1 : (Vᵀ * V) k k = (1 : Matrix (Fin d) (Fin d) α) k k := by rw [horth]
  rw [Matrix.mul_apply, Matrix.one_apply_eq] at h1
  have h0 : ∀ j, Vᵀ k j * V j k = 0 := by
    intro j
    have := congrFun h j
    simp only [Pi.zero_apply] at this
    rw [Matrix.transpose_apply, this, mul_zero]
  rw [Finset.sum_congr rfl fun j _ => h0 j] at h1
  simp at h1

/-- Each eigenvalue reported by the solver on a symmetric matrix is the
quadratic form of the matrix at the corresponding unit eigenvector. -/
lemma eigen_entry_quad {d : ℕ} {M : Matrix (Fin d) (Fin d) α}
    {ev : Fin d → α} {V : Matrix (Fin d) (Fin d) α}
    (horth : Vᵀ * V = 1) (hdec : M = V * Matrix.diagonal ev * Vᵀ)
    (k : Fin d) : ev k = quadForm M (fun i => V i k) := by
  have hcol : (Vᵀ *ᵥ fun i => V i k) = fun j => (1 : Matrix (Fin d) (Fin d) α) j k := by
    funext j
    rw [Matrix.mulVec, Matrix.dotProduct, ← horth, Matrix.mul_apply]
  rw [hdec, quadForm_VDVt, hcol]
  have hterm : ∀ j : Fin d, ev j *
      ((1 : Matrix (Fin d) (Fin d) α) j k * (1 : Matrix (Fin d) (Fin d) α) j k) =
      if j = k then ev k else 0 := by
    intro j
    by_cases hjk : j = k
    · subst hjk; rw [Matrix.one_apply_eq]; simp
    · rw [Matrix.one_apply_ne hjk, if_neg hjk]; ring
  rw [Finset.sum_congr rfl fun j _ => hterm j, Finset.sum_ite_eq']
  simp

/-- On a symmetric positive definite matrix all solver eigenvalues are
positive. -/
lemma posdefm_ev_pos {d : ℕ} {M : Matrix (Fin d) (Fin d) α}
    {ev : Fin d → α} {V : Matrix (Fin d) (Fin d) α}
    (hM : PosDefM M) (h : EigenOut M ev V) (k : Fin d) : 0 < ev k := by
  obtain ⟨horth, hdec⟩ := h hM.1
  rw [eigen_entry_quad horth hdec k]
  exact hM.2 _ (col_ne_zero horth k)

/-- Diagonal matrices with positive entries are symmetric positive
definite. -/
lemma posDefM_diagonal {d : ℕ} {f : Fin d → α} (hf : ∀ i, 0 < f i) :
    PosDefM (Matrix.diagonal f) := by
  refine ⟨Matrix.diagonal_transpose f, fun v hv => ?_⟩
  rw [quadForm_diagonal]
  obtain ⟨i, hi⟩ := Function.ne_iff.mp hv
  refine Finset.sum_pos' (fun k _ => mul_nonneg (hf k).le (mul_self_nonneg _)) ?_
  exact ⟨i, Finset.mem_univ i, mul_pos (hf i) (mul_self_pos.mpr hi)⟩

end Helpers

/-- C2: on a symmetric positive definite stored matrix, eigen_decomp
followed by eigen_undecomp reproduces the stored matrix exactly: the
decomposition exports the transposed eigenvector matrix (rows are
eigenvectors) together with the absolute eigenvalues, and the
recomposition sums |D k| V[k,i] V[k,j], which rebuilds V diag(ev) V^T. -/
theorem eigen_roundtrip {d : ℕ} (M : Matrix (Fin d) (Fin d) ℝ)
    (hM : PosDefM M) (D : Fin d → ℝ) (V : Matrix (Fin d) (Fin d) ℝ)
    (h : eigen_decomp M D V) : eigen_undecomp D V = M := by
  rcases h with ⟨hz, hD, hV⟩ | ⟨hne, ev, Vs, hout, hD, hV⟩
  · subst hD hV
    ext i j
    simp [eigen_undecomp, hz]
  · obtain ⟨horth, hdec⟩ := hout hM.1
    have hpos : ∀ k, 0 ≤ ev k := fun k => (posdefm_ev_pos hM hout k).le
    subst hD hV
    ext i j
    simp only [eigen_undecomp, Matrix.of_apply]
    rw [hdec, VDVt_apply]
    refine Finset.sum_congr rfl fun k _ => ?_
    rw [Matrix.transpose_apply, Matrix.transpose_apply, abs_abs,
      abs_of_nonneg (hpos k)]

/-- Witness for C2 at the concrete positive definite matrix
diag(2,2,2) of scenario S7, decomposed with D = (2,2,2) and V = I. -/
theorem eigen_roundtrip_witness :
    PosDefM (Matrix.diagonal ![(2 : ℝ), 2, 2]) ∧
    eigen_decomp (Matrix.diagonal ![(2 : ℝ), 2, 2]) ![2, 2, 2] 1 ∧
    eigen_undecomp ![(2 : ℝ), 2, 2] 1 = Matrix.diagonal ![(2 : ℝ), 2, 2] := by
  have hpd : PosDefM (Matrix.diagonal ![(2 : ℝ), 2, 2]) := by
    refine posDefM_diagonal fun i => ?_
    fin_cases i <;> norm_num
  have hdec : eigen_decomp (Matrix.diagonal ![(2 : ℝ), 2, 2]) ![2, 2, 2] 1 := by
    refine Or.inr ⟨?_, ![2, 2, 2], 1, ?_, ?_, ?_⟩
    · intro h
      have := congrFun (congrFun h 0) 0
      simp [Matrix.diagonal] at this
    · intro _
      constructor
      · simp
      · simp
    · funext k
      fin_cases k <;> norm_num
    · simp
  exact ⟨hpd, hdec, eigen_roundtrip _ hpd _ _ hdec⟩

/-- Multiplying the eigenvector matrix by the decomposed matrix recovers
the eigen equations, column by column. -/
lemma eigen_cols {d : ℕ} {M V : Matrix (Fin d) (Fin d) α} {ev : Fin d → α}
    (horth : Vᵀ * V = 1) (hdec : M = V * Matrix.diagonal ev * Vᵀ) :
    ∀ k, M *ᵥ (fun i => V i k) = fun i => ev k * V i k := by
  have hMV : M * V = V * Matrix.diagonal ev := by
    rw [hdec, Matrix.mul_assoc (V * Matrix.diagonal ev) Vᵀ V, horth, Matrix.mul_one]
  intro k
  funext i
  have h1 : (M * V) i k = (V * Matrix.diagonal ev) i k := by rw [hMV]
  rw [Matrix.mul_apply, Matrix.mul_diagonal] at h1
  show ∑ j, M i j * V j k = ev k * V i k
  rw [h1]; ring

/-- C6: on a nonzero symmetric stored matrix, eigen_decomp returns
non-negative D (the absolute eigenvalues) and a matrix whose rows are the
corresponding eigenvectors: each row satisfies the eigen equation for the
matrix with eigenvalue D k, up to sign. -/
theorem eigen_decomp_rows {d : ℕ} (M : Matrix (Fin d) (Fin d) ℝ)
    (hsym : Mᵀ = M) (hne : M ≠ 0) (D : Fin d → ℝ)
    (Vout : Matrix (Fin d) (Fin d) ℝ) (h : eigen_decomp M D Vout) :
    ∀ k, 0 ≤ D k ∧
      (M *ᵥ (fun i => Vout k i) = D k • (fun i => Vout k i) ∨
       M *ᵥ (fun i => Vout k i) = (-(D k)) • (fun i => Vout k i)) := by
  rcases h with ⟨hz, _, _⟩ | ⟨_, ev, V, hout, hD, hV⟩
  · exact absurd hz hne
  · obtain ⟨horth, hdec⟩ := hout hsym
    subst hD hV
    intro k
    refine ⟨abs_nonneg _, ?_⟩
    have hrow : (fun i => Vᵀ k i) = fun i => V i k := by
      funext i; rw [Matrix.transpose_apply]
    rcases abs_cases (ev k) with ⟨he, _⟩ | ⟨he, _⟩
    · left
      rw [hrow, eigen_cols horth hdec k]
      funext i
      rw [Pi.smul_apply, smul_eq_mul]
      show ev k * V i k = |ev k| * V i k
      rw [he]
    · right
      rw [hrow, eigen_cols horth hdec k]
      funext i
      rw [Pi.smul_apply, smul_eq_mul]
      show ev k * V i k = -|ev k| * V i k
      rw [he]
      ring

/-- Witness for C6 at the diagonal matrix diag(4,1) of scenario S1, with
D = (4,1) and rows of V the standard basis. -/
theorem eigen_decomp_rows_witness :
    (Matrix.diagonal ![(4 : ℝ), 1])ᵀ = Matrix.diagonal ![(4 : ℝ), 1] ∧
    Matrix.diagonal ![(4 : ℝ), 1] ≠ 0 ∧
    eigen_decomp (Matrix.diagonal ![(4 : ℝ), 1]) ![4, 1] 1 ∧
    ∀ k, 0 ≤ (![4, 1] : Fin 2 → ℝ) k ∧
      (Matrix.diagonal ![(4 : ℝ), 1] *ᵥ (fun i => (1 : Matrix (Fin 2) (Fin 2) ℝ) k i) =
        (![4, 1] : Fin 2 → ℝ) k • (fun i => (1 : Matrix (Fin 2) (Fin 2) ℝ) k i) ∨
       Matrix.diagonal ![(4 : ℝ), 1] *ᵥ (fun i => (1 : Matrix (Fin 2) (Fin 2) ℝ) k i) =
        (-((![4, 1] : Fin 2 → ℝ) k)) • (fun i => (1 : Matrix (Fin 2) (Fin 2) ℝ) k i)) := by
  have hsym : (Matrix.diagonal ![(4 : ℝ), 1])ᵀ = Matrix.diagonal ![(4 : ℝ), 1] :=
    Matrix.diagonal_transpose _
  have hne : Matrix.diagonal ![(4 : ℝ), 1] ≠ 0 := by
    intro h
    have := congrFun (congrFun h 0) 0
    simp [Matrix.diagonal] at this
  have hdec : eigen_decomp (Matrix.diagonal ![(4 : ℝ), 1]) ![4, 1] 1 := by
    refine Or.inr ⟨hne, ![4, 1], 1, ?_, ?_, ?_⟩
    · intro _
      exact ⟨by simp, by simp⟩
    · funext k
      fin_cases k <;> norm_num
    · simp
  exact ⟨hsym, hne, hdec, eigen_decomp_rows _ hsym hne _ _ hdec⟩

section VecLemmas

variable {n : ℕ} {β : Type} [LinearOrder β]

lemma vecMin_le (D : Fin (n + 1) → β) (i : Fin (n + 1)) : vecMin D ≤ D i :=
  Finset.inf'_le _ (Finset.mem_univ i)

lemma le_vecMax (D : Fin (n + 1) → β) (i : Fin (n + 1)) : D i ≤ vecMax D :=
  Finset.le_sup' _ (Finset.mem_univ i)

lemma vecMin_mem (D : Fin (n + 1) → β) : ∃ i, vecMin D = D i := by
  obtain ⟨i, _, h⟩ := Finset.exists_mem_eq_inf' (Finset.univ_nonempty) D
  exact ⟨i, h⟩

lemma vecMax_mem (D : Fin (n + 1) → β) : ∃ i, vecMax D = D i := by
  obtain ⟨i, _, h⟩ := Finset.exists_mem_eq_sup' (Finset.univ_nonempty) D
  exact ⟨i, h⟩

/-- The iterated minimum only depends on the set of entry values. -/
lemma vecMin_range_eq {f g : Fin (n + 1) → β}
    (h : Set.range f = Set.range g) : vecMin f = vecMin g := by
  refine le_antisymm ?_ ?_
  · obtain ⟨i, hi⟩ := vecMin_mem g
    have : g i ∈ Set.range f := h ▸ Set.mem_range_self i
    obtain ⟨j, hj⟩ := this
    rw [hi, ← hj]
    exact vecMin_le f j
  · obtain ⟨i, hi⟩ := vecMin_mem f
    have : f i ∈ Set.range g := h ▸ Set.mem_range_self i
    obtain ⟨j, hj⟩ := this
    rw [hi, ← hj]
    exact vecMin_le g j

/-- The iterated maximum only depends on the set of entry values. -/
lemma vecMax_range_eq {f g : Fin (n + 1) → β}
    (h : Set.range f = Set.range g) : vecMax f = vecMax g := by
  refine le_antisymm ?_ ?_
  · obtain ⟨i, hi⟩ := vecMax_mem f
    have : f i ∈ Set.range g := h ▸ Set.mem_range_self i
    obtain ⟨j, hj⟩ := this
    rw [hi, ← hj]
    exact le_vecMax g j
  · obtain ⟨i, hi⟩ := vecMax_mem g
    have : g i ∈ Set.range f := h ▸ Set.mem_range_self i
    obtain ⟨j, hj⟩ := this
    rw [hi, ← hj]
    exact le_vecMax f j

end VecLemmas

section DiagonalSpectrum

variable {d : ℕ} {a ev : Fin d → α} {V : Matrix (Fin d) (Fin d) α}

/-- Every eigenvalue reported by the solver on a diagonal matrix is one of
the diagonal entries. -/
lemma diag_ev_mem (horth : Vᵀ * V = 1)
    (hdec : Matrix.diagonal a = V * Matrix.diagonal ev * Vᵀ) (k : Fin d) :
    ∃ i, ev k = a i := by
  have hcol := eigen_cols horth hdec k
  obtain ⟨i, hi⟩ := Function.ne_iff.mp (col_ne_zero horth k)
  have h1 : (Matrix.diagonal a *ᵥ fun j => V j k) i = ev k * V i k := by
    rw [hcol]
  rw [Matrix.mulVec_diagonal] at h1
  refine ⟨i, mul_right_cancel₀ hi ?_⟩
  rw [h1]

/-- Every diagonal entry appears among the eigenvalues reported by the
solver on a diagonal matrix. -/
lemma diag_mem_ev (horth : Vᵀ * V = 1)
    (hdec : Matrix.diagonal a = V * Matrix.diagonal ev * Vᵀ) (j : Fin d) :
    ∃ k, a j = ev k := by
  have hVVt : V * Vᵀ = 1 := Matrix.mul_eq_one_comm.mp horth
  have hVt : Vᵀᵀ * Vᵀ = 1 := by rw [Matrix.transpose_transpose]; exact hVVt
  obtain ⟨k, hk⟩ := Function.ne_iff.mp (col_ne_zero hVt j)
  have hVtM : Vᵀ * Matrix.diagonal a = Matrix.diagonal ev * Vᵀ := by
    rw [hdec, ← Matrix.mul_assoc, ← Matrix.mul_assoc, horth, Matrix.one_mul]
  have h1 : (Vᵀ * Matrix.diagonal a) k j = (Matrix.diagonal ev * Vᵀ) k j := by
    rw [hVtM]
  rw [Matrix.mul_diagonal, Matrix.diagonal_mul, Matrix.transpose_apply] at h1
  have hk2 : V j k ≠ 0 := by
    simpa [Matrix.transpose_apply] using hk
  refine ⟨k, mul_left_cancel₀ hk2 ?_⟩
  rw [h1]; ring

/-- The eigenvalues of a diagonal matrix sum to the sum of its entries
(trace invariance under the orthogonal conjugation). -/
lemma diag_ev_sum (horth : Vᵀ * V = 1)
    (hdec : Matrix.diagonal a = V * Matrix.diagonal ev * Vᵀ) :
    ∑ k, ev k = ∑ i, a i := by
  have h1 : Matrix.trace (Matrix.diagonal a) =
      Matrix.trace (V * Matrix.diagonal ev * Vᵀ) := by rw [← hdec]
  rw [Matrix.trace_mul_cycle, horth, Matrix.one_mul] at h1
  rw [Matrix.trace_diagonal, Matrix.trace_diagonal] at h1
  rw [h1]

end DiagonalSpectrum

/-- C5: for a diagonal metric with positive entries, the three length
queries evaluate on any eigen_decomp output to 1/sqrt(max entry),
1/sqrt(min entry) and sqrt(d / (sum of entries)) respectively. -/
theorem length_query_consistency {n : ℕ} (a : Fin (n + 1) → ℝ)
    (ha : ∀ i, 0 < a i) (D : Fin (n + 1) → ℝ)
    (Vout : Matrix (Fin (n + 1)) (Fin (n + 1)) ℝ)
    (h : eigen_decomp (Matrix.diagonal a) D Vout) :
    min_length Real.sqrt D = 1 / Real.sqrt (vecMax a) ∧
    max_length Real.sqrt D = 1 / Real.sqrt (vecMin a) ∧
    average_length Real.sqrt D = Real.sqrt (((n + 1 : ℕ) : ℝ) / ∑ i, a i) := by
  rcases h with ⟨hz, _, _⟩ | ⟨_, ev, V, hout, hD, _⟩
  · exfalso
    have := congrFun (congrFun hz ⟨0, Nat.succ_pos n⟩) ⟨0, Nat.succ_pos n⟩
    rw [Matrix.diagonal_apply_eq] at this
    simp only [Matrix.zero_apply] at this
    exact absurd this (ha _).ne'
  · obtain ⟨horth, hdec⟩ := hout (Matrix.diagonal_transpose a)
    have hpos : ∀ k, 0 < ev k := by
      intro k
      obtain ⟨i, hi⟩ := diag_ev_mem horth hdec k
      rw [hi]; exact ha i
    have hDev : D = ev := by
      rw [hD]; funext k; exact abs_of_pos (hpos k)
    have hrange : Set.range D = Set.range a := by
      rw [hDev]
      apply Set.eq_of_subset_of_subset
      · rintro x ⟨k, rfl⟩
        obtain ⟨i, hi⟩ := diag_ev_mem horth hdec k
        exact ⟨i, hi.symm⟩
      · rintro x ⟨j, rfl⟩
        obtain ⟨k, hk⟩ := diag_mem_ev horth hdec j
        exact ⟨k, hk.symm⟩
    have hsum : ∑ k, D k = ∑ i, a i := by
      rw [hDev]; exact diag_ev_sum horth hdec
    refine ⟨?_, ?_, ?_⟩
    · rw [min_length, vecMax_range_eq hrange, one_div, Real.sqrt_inv, one_div]
    · rw [max_length, vecMin_range_eq hrange, one_div, Real.sqrt_inv, one_div]
    · rw [average_length, hsum, one_div_div]

/-- Witness for C5 at the diagonal metric diag(4,1) of scenario S2,
decomposed with D = (4,1) and V = I: it yields min_length 1/2, max_length
1 and average_length sqrt(2/5). -/
theorem length_query_consistency_witness :
    (∀ i, 0 < (![4, 1] : Fin 2 → ℝ) i) ∧
    eigen_decomp (Matrix.diagonal ![(4 : ℝ), 1]) ![4, 1] 1 ∧
    min_length Real.sqrt (![4, 1] : Fin 2 → ℝ) = 1 / Real.sqrt (vecMax ![(4 : ℝ), 1]) ∧
    max_length Real.sqrt (![4, 1] : Fin 2 → ℝ) = 1 / Real.sqrt (vecMin ![(4 : ℝ), 1]) ∧
    average_length Real.sqrt (![4, 1] : Fin 2 → ℝ) =
      Real.sqrt (((2 : ℕ) : ℝ) / ∑ i, (![4, 1] : Fin 2 → ℝ) i) := by
  have ha : ∀ i, 0 < (![4, 1] : Fin 2 → ℝ) i := by
    intro i; fin_cases i <;> norm_num
  have hdec : eigen_decomp (Matrix.diagonal ![(4 : ℝ), 1]) ![4, 1] 1 := by
    refine Or.inr ⟨?_, ![4, 1], 1, ?_, ?_, ?_⟩
    · intro h
      have := congrFun (congrFun h 0) 0
      simp [Matrix.diagonal] at this
    · intro _
      exact ⟨by simp, by simp⟩
    · funext k
      fin_cases k <;> norm_num
    · simp
  obtain ⟨h1, h2, h3⟩ := length_query_consistency ![4, 1] ha ![4, 1] 1 hdec
  exact ⟨ha, hdec, h1, h2, h3⟩

omit [LinearOrderedField α] in
/-- Reading back the 2x2 block just written into a buffer. -/
lemma toMat2_write2 (buf : ℕ → α) (M : Matrix (Fin 2) (Fin 2) α) :
    toMat2 (write2 buf M) = M := by
  ext i j
  fin_cases i <;> fin_cases j <;> rfl

omit [LinearOrderedField α] in
/-- Reading back the 3x3 block just written into a buffer. -/
lemma toMat3_write3 (buf : ℕ → α) (M : Matrix (Fin 3) (Fin 3) α) :
    toMat3 (write3 buf M) = M := by
  ext i j
  fin_cases i <;> fin_cases j <;> rfl

/-- The recomposition V |Lambda| V^T has a non-negative quadratic form for
any real V whatsoever (orthogonality is not needed). -/
lemma pdCore_quad_nonneg {d : ℕ} (ev : Fin d → α)
    (V : Matrix (Fin d) (Fin d) α) (v : Fin d → α) :
    0 ≤ quadForm (pdCore ev V) v := by
  rw [pdCore, quadForm_VDVt]
  exact Finset.sum_nonneg fun k _ =>
    mul_nonneg (abs_nonneg _) (mul_self_nonneg _)

/-- A matrix with everywhere non-negative quadratic form has only
non-negative eigenvalues. -/
lemma psd_eigen_nonneg {d : ℕ} {M : Matrix (Fin d) (Fin d) α}
    (hq : ∀ v, 0 ≤ quadForm M v) {mu : α} {v : Fin d → α} (hv : v ≠ 0)
    (heq : M *ᵥ v = mu • v) : 0 ≤ mu := by
  have h1 : quadForm M v = mu * (v ⬝ᵥ v) := by
    unfold quadForm
    rw [heq, Matrix.dotProduct_smul, smul_eq_mul]
  have h2 := hq v
  rw [h1] at h2
  nlinarith [dotSelf_pos hv]

/-- C3 (amended): after positive_definiteness every eigenvalue of the
stored 2x2 or 3x3 result is non-negative; and on a symmetric input the
result keeps the solver eigenvectors, with eigenvalues replaced by their
absolute values.  (On non-symmetric diagonalisable input the eigenvectors
are not preserved; see the counterexample.) -/
theorem positive_definiteness_psd_eigvec :
    (∀ buf out : ℕ → ℝ, positive_definiteness 2 buf out →
      ∀ (mu : ℝ) (v : Fin 2 → ℝ), v ≠ 0 → toMat2 out *ᵥ v = mu • v → 0 ≤ mu) ∧
    (∀ buf out : ℕ → ℝ, positive_definiteness 3 buf out →
      ∀ (mu : ℝ) (v : Fin 3 → ℝ), v ≠ 0 → toMat3 out *ᵥ v = mu • v → 0 ≤ mu) ∧
    (∀ (d : ℕ) (M : Matrix (Fin d) (Fin d) ℝ) (ev : Fin d → ℝ)
      (V : Matrix (Fin d) (Fin d) ℝ), Mᵀ = M → EigenOut M ev V →
      pdCore ev V * V = V * Matrix.diagonal (fun k => |ev k|)) := by
  refine ⟨?_, ?_, ?_⟩
  · intro buf out h mu v hv heq
    rw [positive_definiteness, if_pos rfl] at h
    rcases h with ⟨hz, ho⟩ | ⟨_, ev, V, _, ho⟩
    · subst ho
      rw [hz] at heq
      rw [Matrix.zero_mulVec] at heq
      rcases smul_eq_zero.mp heq.symm with h | h
      · rw [h]
      · exact absurd h hv
    · subst ho
      rw [toMat2_write2] at heq
      exact psd_eigen_nonneg (pdCore_quad_nonneg ev V) hv heq
  · intro buf out h mu v hv heq
    rw [positive_definiteness, if_neg (by norm_num)] at h
    rcases h with ⟨hz, ho⟩ | ⟨_, ev, V, _, ho⟩
    · subst ho
      rw [hz] at heq
      rw [Matrix.zero_mulVec] at heq
      rcases smul_eq_zero.mp heq.symm with h | h
      · rw [h]
      · exact absurd h hv
    · subst ho
      rw [toMat3_write3] at heq
      exact psd_eigen_nonneg (pdCore_quad_nonneg ev V) hv heq
  · intro d M ev V hsym hout
    obtain ⟨horth, _⟩ := hout hsym
    rw [pdCore, Matrix.mul_assoc (V * Matrix.diagonal fun k => |ev k|) Vᵀ V,
      horth, Matrix.mul_one]

/-- Witness for C3 at scenario S3: the buffer holding [[1,0],[0,-4]] is
transformed into [[1,0],[0,4]], whose eigenvalue 4 at (0,1) is
non-negative; and on this symmetric input the eigenvectors are kept. -/
theorem positive_definiteness_psd_eigvec_witness :
    positive_definiteness 2
      (fun i => if i = 0 then (1 : ℝ) else if i = 3 then -4 else 0)
      (write2 (fun i => if i = 0 then (1 : ℝ) else if i = 3 then -4 else 0)
        (pdCore ![1, -4] 1)) ∧
    (![0, 1] : Fin 2 → ℝ) ≠ 0 ∧
    toMat2 (write2 (fun i => if i = 0 then (1 : ℝ) else if i = 3 then -4 else 0)
      (pdCore ![1, -4] 1)) *ᵥ ![0, 1] = (4 : ℝ) • ![0, 1] ∧
    (0 : ℝ) ≤ 4 ∧
    (Matrix.diagonal ![(1 : ℝ), -4])ᵀ = Matrix.diagonal ![(1 : ℝ), -4] ∧
    EigenOut (Matrix.diagonal ![(1 : ℝ), -4]) ![1, -4] 1 ∧
    pdCore ![(1 : ℝ), -4] 1 = 1 * Matrix.diagonal (fun k => |(![1, -4] : Fin 2 → ℝ) k|) := by
  have hpd : positive_definiteness 2
      (fun i => if i = 0 then (1 : ℝ) else if i = 3 then -4 else 0)
      (write2 (fun i => if i = 0 then (1 : ℝ) else if i = 3 then -4 else 0)
        (pdCore ![1, -4] 1)) := by
    rw [positive_definiteness, if_pos rfl]
    refine Or.inr ⟨?_, ![1, -4], 1, ?_, rfl⟩
    · intro h
      have := congrFun (congrFun h 0) 0
      simp [toMat2] at this
    · intro _
      constructor
      · simp
      · ext i j
        fin_cases i <;> fin_cases j <;> simp [toMat2, Matrix.diagonal]
  have hv : (![0, 1] : Fin 2 → ℝ) ≠ 0 := by
    intro h
    have := congrFun h 1
    simp at this
  have heq : toMat2 (write2 (fun i => if i = 0 then (1 : ℝ) else if i = 3 then -4 else 0)
      (pdCore ![1, -4] 1)) *ᵥ ![0, 1] = (4 : ℝ) • ![0, 1] := by
    rw [toMat2_write2]
    funext i
    fin_cases i <;>
      simp [pdCore, Matrix.mulVec, Matrix.dotProduct, Fin.sum_univ_two,
        Matrix.diagonal, Matrix.one_apply]
  have hsym : (Matrix.diagonal ![(1 : ℝ), -4])ᵀ = Matrix.diagonal ![(1 : ℝ), -4] :=
    Matrix.diagonal_transpose _
  have hout : EigenOut (Matrix.diagonal ![(1 : ℝ), -4]) ![1, -4] 1 := by
    intro _
    exact ⟨by simp, by simp⟩
  refine ⟨hpd, hv, heq,
    positive_definiteness_psd_eigvec.1 _ _ hpd 4 ![0, 1] hv heq, hsym, hout, ?_⟩
  have h3 := positive_definiteness_psd_eigvec.2.2 2 (Matrix.diagonal ![(1 : ℝ), -4])
    ![1, -4] 1 hsym hout
  rw [Matrix.mul_one] at h3
  rw [h3, Matrix.one_mul]

/-- C3 counterexample: the non-symmetric but real-diagonalisable input
[[1,1],[0,2]] (unit eigenvectors (1,0) and (1,1)/sqrt 2) is rebuilt by
positive_definiteness as V |Lambda| V^T = [[2,1],[1,1]], and the input
eigenvector (1,0) is an eigenvector of no scalar for the result: the
result does not keep the input eigenvectors even up to sign. -/
theorem positive_definiteness_eigvec_counterexample :
    positive_definiteness 2
      (fun i => if i = 0 then (1 : ℝ) else if i = 1 then 1 else if i = 3 then 2 else 0)
      (write2 (fun i => if i = 0 then (1 : ℝ) else if i = 1 then 1 else if i = 3 then 2 else 0)
        (pdCore ![1, 2] !![1, Real.sqrt 2 / 2; 0, Real.sqrt 2 / 2])) ∧
    toMat2 (fun i => if i = 0 then (1 : ℝ) else if i = 1 then 1 else if i = 3 then 2 else 0) =
      !![(1 : ℝ), 1; 0, 2] ∧
    !![(1 : ℝ), 1; 0, 2] *ᵥ ![1, 0] = (1 : ℝ) • ![1, 0] ∧
    !![(1 : ℝ), 1; 0, 2] *ᵥ ![Real.sqrt 2 / 2, Real.sqrt 2 / 2] =
      (2 : ℝ) • ![Real.sqrt 2 / 2, Real.sqrt 2 / 2] ∧
    toMat2 (write2 (fun i => if i = 0 then (1 : ℝ) else if i = 1 then 1 else if i = 3 then 2 else 0)
      (pdCore ![1, 2] !![1, Real.sqrt 2 / 2; 0, Real.sqrt 2 / 2])) = !![(2 : ℝ), 1; 1, 1] ∧
    ∀ c : ℝ, toMat2 (write2 (fun i => if i = 0 then (1 : ℝ) else if i = 1 then 1 else if i = 3 then 2 else 0)
      (pdCore ![1, 2] !![1, Real.sqrt 2 / 2; 0, Real.sqrt 2 / 2])) *ᵥ ![1, 0] ≠ c • ![1, 0] := by
  have h2 : Real.sqrt 2 * Real.sqrt 2 = 2 := Real.mul_self_sqrt (by norm_num)
  have hmat : toMat2 (fun i => if i = 0 then (1 : ℝ) else if i = 1 then 1 else
      if i = 3 then 2 else 0) = !![(1 : ℝ), 1; 0, 2] := by
    ext i j
    fin_cases i <;> fin_cases j <;> rfl
  have hcore : pdCore ![(1 : ℝ), 2] !![1, Real.sqrt 2 / 2; 0, Real.sqrt 2 / 2] =
      !![(2 : ℝ), 1; 1, 1] := by
    ext i j
    rw [pdCore, VDVt_apply, Fin.sum_univ_two]
    fin_cases i <;> fin_cases j <;> simp <;> nlinarith [h2]
  have hout : toMat2 (write2 (fun i => if i = 0 then (1 : ℝ) else if i = 1 then 1 else
      if i = 3 then 2 else 0)
      (pdCore ![1, 2] !![1, Real.sqrt 2 / 2; 0, Real.sqrt 2 / 2])) = !![(2 : ℝ), 1; 1, 1] := by
    rw [toMat2_write2, hcore]
  refine ⟨?_, hmat, ?_, ?_, hout, ?_⟩
  · rw [positive_definiteness, if_pos rfl]
    refine Or.inr ⟨?_, ![1, 2], !![1, Real.sqrt 2 / 2; 0, Real.sqrt 2 / 2], ?_, rfl⟩
    · rw [hmat]
      intro h
      have := congrFun (congrFun h 0) 0
      simp at this
    · rw [hmat]
      intro hsymm
      exfalso
      have := congrFun (congrFun hsymm 0) 1
      simp [Matrix.transpose_apply] at this
  · funext i
    fin_cases i <;>
      simp [Matrix.mulVec, Matrix.dotProduct, Fin.sum_univ_two]
  · funext i
    fin_cases i <;> simp [Matrix.mulVec, Matrix.dotProduct, Fin.sum_univ_two] <;> ring
  · intro c hc
    rw [hout] at hc
    have h1 := congrFun hc 1
    simp [Matrix.mulVec, Matrix.dotProduct, Fin.sum_univ_two] at h1

section VecPairs

variable {β : Type} [LinearOrder β]

lemma le_vecMin {n : ℕ} (c : β) (D : Fin (n + 1) → β) (h : ∀ i, c ≤ D i) :
    c ≤ vecMin D :=
  Finset.le_inf' _ _ fun i _ => h i

lemma vecMax_le {n : ℕ} (c : β) (D : Fin (n + 1) → β) (h : ∀ i, D i ≤ c) :
    vecMax D ≤ c :=
  Finset.sup'_le _ _ fun i _ => h i

lemma vecMin_pair (x y : β) : vecMin ![x, y] = min x y := by
  refine le_antisymm (le_min (vecMin_le _ 0) (vecMin_le _ 1)) ?_
  refine le_vecMin _ _ fun i => ?_
  fin_cases i
  · exact min_le_left x y
  · exact min_le_right x y

lemma vecMax_pair (x y : β) : vecMax ![x, y] = max x y := by
  refine le_antisymm ?_ (max_le (le_vecMax ![x, y] 0) (le_vecMax ![x, y] 1))
  refine vecMax_le _ _ fun i => ?_
  fin_cases i
  · exact le_max_left x y
  · exact le_max_right x y

end VecPairs

/-- C4 (amended): the zero matrix is preserved by both positive
definiteness enforcements (in the 2x2 branch and in the 3x3 branch taken
by every other dimension), by scale, and by constrain when the OTHER
metric argument is the zero matrix (the early return of line 253/284).  A
zero stored matrix is not protected against a nonzero argument; see the
counterexample. -/
theorem zero_matrix_preservation :
    (∀ buf out : ℕ → ℝ, positive_definiteness 2 buf out → toMat2 buf = 0 → out = buf) ∧
    (∀ (dimension : ℕ) (buf out : ℕ → ℝ), dimension ≠ 2 →
      positive_definiteness dimension buf out → toMat3 buf = 0 → out = buf) ∧
    (∀ buf out : ℕ → ℝ, positive_definiteness_iso 2 buf out → toMat2 buf = 0 → out = buf) ∧
    (∀ (dimension : ℕ) (buf out : ℕ → ℝ), dimension ≠ 2 →
      positive_definiteness_iso dimension buf out → toMat3 buf = 0 → out = buf) ∧
    (∀ (dimension : ℕ) (s : ℝ) (buf : ℕ → ℝ), (∀ i, buf i = 0) →
      ∀ i, scale dimension s buf i = 0) ∧
    (∀ (n : ℕ) (Ms Mc : Matrix (Fin (n + 1)) (Fin (n + 1)) ℝ) (p : Bool),
      constrain (fun _ => false) Ms 0 p Mc → Mc = Ms) := by
  refine ⟨?_, ?_, ?_, ?_, ?_, ?_⟩
  · intro buf out h hz
    rw [positive_definiteness, if_pos rfl] at h
    rcases h with ⟨_, ho⟩ | ⟨hne, _⟩
    · exact ho
    · exact absurd hz hne
  · intro dimension buf out hd h hz
    rw [positive_definiteness, if_neg hd] at h
    rcases h with ⟨_, ho⟩ | ⟨hne, _⟩
    · exact ho
    · exact absurd hz hne
  · intro buf out h hz
    rw [positive_definiteness_iso, if_pos rfl] at h
    rcases h with ⟨_, ho⟩ | ⟨hne, _⟩
    · exact ho
    · exact absurd hz hne
  · intro dimension buf out hd h hz
    rw [positive_definiteness_iso, if_neg hd] at h
    rcases h with ⟨_, ho⟩ | ⟨hne, _⟩
    · exact ho
    · exact absurd hz hne
  · intro dimension s buf hz i
    rw [scale]
    split_ifs <;> simp [hz i]
  · intro n Ms Mc p h
    rcases h with ⟨⟨i, j, _, habs⟩, _⟩ | ⟨_, h⟩
    · simp at habs
    · rcases h with ⟨_, ho⟩ | ⟨hne, _⟩
      · exact ho
      · exact absurd rfl hne

/-- Witness for C4: the all-zero 2x2 and 3x3 buffers pass through both
enforcement variants unchanged, scaling the zero buffer by 5 keeps it
zero, and constraining the identity with the zero matrix returns the
identity. -/
theorem zero_matrix_preservation_witness :
    positive_definiteness 2 (fun _ => (0 : ℝ)) (fun _ => 0) ∧
    toMat2 (fun _ => (0 : ℝ)) = 0 ∧
    positive_definiteness 3 (fun _ => (0 : ℝ)) (fun _ => 0) ∧
    toMat3 (fun _ => (0 : ℝ)) = 0 ∧
    positive_definiteness_iso 2 (fun _ => (0 : ℝ)) (fun _ => 0) ∧
    positive_definiteness_iso 3 (fun _ => (0 : ℝ)) (fun _ => 0) ∧
    (∀ i, scale 2 (5 : ℝ) (fun _ => 0) i = 0) ∧
    constrain (fun _ => false) (1 : Matrix (Fin 2) (Fin 2) ℝ) 0 true 1 ∧
    ((fun _ => (0 : ℝ)) : ℕ → ℝ) = (fun _ => 0) ∧
    (1 : Matrix (Fin 2) (Fin 2) ℝ) = 1 := by
  have hz2 : toMat2 (fun _ => (0 : ℝ)) = 0 := by
    ext i j; fin_cases i <;> fin_cases j <;> rfl
  have hz3 : toMat3 (fun _ => (0 : ℝ)) = 0 := by
    ext i j; fin_cases i <;> fin_cases j <;> rfl
  have hpd2 : positive_definiteness 2 (fun _ => (0 : ℝ)) (fun _ => 0) := by
    rw [positive_definiteness, if_pos rfl]
    exact Or.inl ⟨hz2, rfl⟩
  have hpd3 : positive_definiteness 3 (fun _ => (0 : ℝ)) (fun _ => 0) := by
    rw [positive_definiteness, if_neg (by norm_num)]
    exact Or.inl ⟨hz3, rfl⟩
  have hiso2 : positive_definiteness_iso 2 (fun _ => (0 : ℝ)) (fun _ => 0) := by
    rw [positive_definiteness_iso, if_pos rfl]
    exact Or.inl ⟨hz2, rfl⟩
  have hiso3 : positive_definiteness_iso 3 (fun _ => (0 : ℝ)) (fun _ => 0) := by
    rw [positive_definiteness_iso, if_neg (by norm_num)]
    exact Or.inl ⟨hz3, rfl⟩
  have hcon : constrain (fun _ => false) (1 : Matrix (Fin 2) (Fin 2) ℝ) 0 true 1 := by
    refine Or.inr ⟨?_, Or.inl ⟨rfl, rfl⟩⟩
    rintro ⟨i, j, -, habs⟩
    simp at habs
  refine ⟨hpd2, hz2, hpd3, hz3, hiso2, hiso3, ?_, hcon, ?_, ?_⟩
  · exact zero_matrix_preservation.2.2.2.2.1 2 5 (fun _ => 0) (fun _ => rfl)
  · exact zero_matrix_preservation.1 _ _ hpd2 hz2
  · exact zero_matrix_preservation.2.2.2.2.2 1 1 1 true hcon

/-- C4 counterexample: a zero stored matrix is NOT preserved by constrain
against a nonzero argument.  With self = 0 and other = diag(4,1), the
aspect ratio of the zero tensor evaluates to 0/0 (exact-arithmetic junk
value 0), the argument becomes the reference, the whitened target is the
zero matrix, and the preserve clamp rebuilds the full reference: the
stored result is diag(4,1), not the zero matrix.  (In IEEE arithmetic the
same run divides by a zero determinant and stores NaNs; either way the
zero state is destroyed.) -/
theorem constrain_zero_self_counterexample :
    constrain (fun _ => false) (0 : Matrix (Fin 2) (Fin 2) ℝ)
      !![4, 0; 0, 1] true !![4, 0; 0, 1] ∧
    (!![(4 : ℝ), 0; 0, 1] : Matrix (Fin 2) (Fin 2) ℝ) ≠ 0 := by
  have habs0 : (fun k => |(![0, 0] : Fin 2 → ℝ) k|) = ![0, 0] := by
    funext k; fin_cases k <;> simp
  have habs41 : (fun k => |(![4, 1] : Fin 2 → ℝ) k|) = ![4, 1] := by
    funext k; fin_cases k <;> simp
  have hd41 : (!![(4 : ℝ), 0; 0, 1] : Matrix (Fin 2) (Fin 2) ℝ) =
      Matrix.diagonal ![4, 1] := by
    ext i j; fin_cases i <;> fin_cases j <;> simp [Matrix.diagonal]
  have hne : (!![(4 : ℝ), 0; 0, 1] : Matrix (Fin 2) (Fin 2) ℝ) ≠ 0 := by
    intro h
    have := congrFun (congrFun h 0) 0
    simp at this
  have hev0 : EigenOut (0 : Matrix (Fin 2) (Fin 2) ℝ) ![0, 0] 1 := by
    intro _
    refine ⟨by simp, ?_⟩
    ext i j
    fin_cases i <;> fin_cases j <;> simp [Matrix.diagonal]
  have hev41 : EigenOut (!![(4 : ℝ), 0; 0, 1]) ![4, 1] 1 := by
    intro _
    refine ⟨by simp, ?_⟩
    rw [Matrix.one_mul, Matrix.transpose_one, Matrix.mul_one, hd41]
  have haspect : aspect (![4, 1] : Fin 2 → ℝ) > aspect (![0, 0] : Fin 2 → ℝ) := by
    rw [aspect, aspect, habs0, habs41, vecMin_pair, vecMax_pair,
      vecMin_pair, vecMax_pair]
    norm_num
  refine ⟨Or.inr ⟨?_, Or.inr ⟨hne, ![0, 0], 1, ![4, 1], 1, hev0, hev41,
    Or.inl ⟨haspect, ?_⟩⟩⟩, hne⟩
  · rintro ⟨i, j, -, habs⟩
    simp at habs
  · refine ⟨![4, 1], 1, ![2, 1], ![0, 0], 1, hev41, ?_, ?_, ?_⟩
    · intro k
      fin_cases k <;> norm_num
    · intro _
      refine ⟨by simp, ?_⟩
      rw [Matrix.mul_zero, Matrix.zero_mul]
      ext i j
      fin_cases i <;> fin_cases j <;> simp [Matrix.diagonal]
    · have hclamp : clampEv true (![0, 0] : Fin 2 → ℝ) = fun _ => 1 := by
        funext k
        fin_cases k <;> simp [clampEv]
      have hF : whitenMap ![2, 1] (1 : Matrix (Fin 2) (Fin 2) ℝ) =
          Matrix.diagonal ![2, 1] := by
        rw [whitenMap, Matrix.mul_one]
      rw [whitenClamp, hclamp, hF, Matrix.diagonal_one]
      ext i j
      fin_cases i <;> fin_cases j <;>
        simp [Matrix.mul_apply, Matrix.transpose_apply, Matrix.diagonal,
          Matrix.one_apply, Fin.sum_univ_two] <;> norm_num

/-- C8: when any upper-triangle component of the argument matrix satisfies
the isnan predicate, constrain leaves the stored matrix unchanged
(bit-identical), in either preservation mode: the guard returns before any
other work. -/
theorem constrain_nan_short_circuit {n : ℕ} (isnan : α → Bool)
    (Ms Mo : Matrix (Fin (n + 1)) (Fin (n + 1)) α) (p : Bool)
    (Mc : Matrix (Fin (n + 1)) (Fin (n + 1)) α)
    (hnan : hasNaNUpper isnan Mo) (h : constrain isnan Ms Mo p Mc) :
    Mc = Ms := by
  rcases h with ⟨_, ho⟩ | ⟨hno, _⟩
  · exact ho
  · exact absurd hnan hno

/-- Witness for C8 over the rationals, flagging the value 99 as the NaN
marker: the argument [[99,0],[0,1]] has a flagged upper-triangle entry and
constrain leaves the stored identity untouched. -/
theorem constrain_nan_short_circuit_witness :
    hasNaNUpper (fun x : ℚ => decide (x = 99)) !![99, 0; 0, 1] ∧
    constrain (fun x : ℚ => decide (x = 99)) !![1, 0; 0, 1] !![99, 0; 0, 1]
      true !![1, 0; 0, 1] ∧
    (!![(1 : ℚ), 0; 0, 1] : Matrix (Fin 2) (Fin 2) ℚ) = !![1, 0; 0, 1] := by
  have hnan : hasNaNUpper (fun x : ℚ => decide (x = 99))
      (!![99, 0; 0, 1] : Matrix (Fin 2) (Fin 2) ℚ) := by
    refine ⟨0, 0, le_refl 0, ?_⟩
    simp
  have hcon : constrain (fun x : ℚ => decide (x = 99)) !![1, 0; 0, 1]
      !![99, 0; 0, 1] true !![1, 0; 0, 1] := Or.inl ⟨hnan, rfl⟩
  exact ⟨hnan, hcon,
    constrain_nan_short_circuit (fun x : ℚ => decide (x = 99)) _ _ true _ hnan hcon⟩

/-- C7 (amended): once a MetricTensor has storage, set_metric called with a
differing dimension is fatal (modelled as the none result) and a
successful set_metric never changes the stored dimension.  The raw set
member, by contrast, replaces the dimension without any check; see the
counterexample. -/
theorem set_metric_dimension_lock :
    (∀ (t : MetricTensor ℝ) (dimension : ℕ) (m : ℕ → ℝ)
      (r : Option (MetricTensor ℝ)) (b : ℕ → ℝ),
      t._metric = some b → t._dimension ≠ dimension →
      MetricTensor.set_metric t dimension m r → r = none) ∧
    (∀ (t : MetricTensor ℝ) (dimension : ℕ) (m : ℕ → ℝ)
      (r : Option (MetricTensor ℝ)) (u : MetricTensor ℝ),
      MetricTensor.set_metric t dimension m r → r = some u →
      (t._metric = none → u._dimension = dimension) ∧
      (t._metric ≠ none → u._dimension = t._dimension)) := by
  constructor
  · rintro ⟨dt, mt⟩ dimension m r b hb hne h
    cases mt with
    | none => exact absurd hb (by simp)
    | some buf =>
        rw [MetricTensor.set_metric] at h
        rw [if_neg hne] at h
        exact h
  · rintro ⟨dt, mt⟩ dimension m r u h hr
    cases mt with
    | none =>
        rw [MetricTensor.set_metric] at h
        obtain ⟨buf, _, hsome⟩ := h
        rw [hsome] at hr
        refine ⟨fun _ => ?_, fun hne => absurd rfl hne⟩
        cases hr
        rfl
    | some buf =>
        rw [MetricTensor.set_metric] at h
        by_cases hd : dt = dimension
        · rw [if_pos hd] at h
          obtain ⟨buf2, _, hsome⟩ := h
          rw [hsome] at hr
          refine ⟨fun hnone => ?_, fun _ => ?_⟩
          · exact absurd hnone (by simp)
          · cases hr
            rfl
        · rw [if_neg hd] at h
          rw [h] at hr
          cases hr

/-- Witness for C7: a tensor locked at dimension 2 makes set_metric with
dimension 3 fatal, and a fresh tensor accepts dimension 2, its result
carrying dimension 2. -/
theorem set_metric_dimension_lock_witness :
    (⟨2, some fun _ => (0 : ℝ)⟩ : MetricTensor ℝ)._metric = some (fun _ => (0 : ℝ)) ∧
    (⟨2, some fun _ => (0 : ℝ)⟩ : MetricTensor ℝ)._dimension ≠ 3 ∧
    MetricTensor.set_metric (⟨2, some fun _ => (0 : ℝ)⟩ : MetricTensor ℝ) 3
      (fun _ => 0) none ∧
    MetricTensor.set_metric (⟨0, none⟩ : MetricTensor ℝ) 2 (fun _ => 0)
      (some ⟨2, some (copyBuf 2 fun _ => (0 : ℝ))⟩) ∧
    (none : Option (MetricTensor ℝ)) = none ∧
    (⟨2, some (copyBuf 2 fun _ => (0 : ℝ))⟩ : MetricTensor ℝ)._dimension = 2 := by
  have hmt : (⟨2, some fun _ => (0 : ℝ)⟩ : MetricTensor ℝ)._metric =
      some (fun _ => (0 : ℝ)) := rfl
  have hne : (⟨2, some fun _ => (0 : ℝ)⟩ : MetricTensor ℝ)._dimension ≠ 3 := by
    norm_num
  have hfatal : MetricTensor.set_metric
      (⟨2, some fun _ => (0 : ℝ)⟩ : MetricTensor ℝ) 3 (fun _ => 0) none := by
    rw [MetricTensor.set_metric]
    rw [if_neg hne]
  have hz2 : toMat2 (copyBuf 2 fun _ => (0 : ℝ)) = 0 := by
    ext i j
    fin_cases i <;> fin_cases j <;> rfl
  have hfresh : MetricTensor.set_metric (⟨0, none⟩ : MetricTensor ℝ) 2
      (fun _ => 0) (some ⟨2, some (copyBuf 2 fun _ => (0 : ℝ))⟩) := by
    rw [MetricTensor.set_metric]
    refine ⟨copyBuf 2 fun _ => (0 : ℝ), ?_, rfl⟩
    rw [positive_definiteness, if_pos rfl]
    exact Or.inl ⟨hz2, rfl⟩
  refine ⟨hmt, hne, hfatal, hfresh,
    set_metric_dimension_lock.1 _ 3 _ none _ hmt hne hfatal, ?_⟩
  exact (set_metric_dimension_lock.2 _ 2 _ _ _ hfresh rfl).1 rfl

/-- C7 counterexample: the public raw set member silently resets the
dimension of an initialised tensor from 2 to 3 with no failure, so the
dimension is not locked against every public operation. -/
theorem set_resets_dimension_counterexample :
    (MetricTensor.set (⟨2, some fun _ => (1 : ℚ)⟩ : MetricTensor ℚ) 3
      fun _ => 0)._dimension = 3 ∧
    (⟨2, some fun _ => (1 : ℚ)⟩ : MetricTensor ℚ)._dimension = 2 ∧
    (3 : ℕ) ≠ 2 := by
  exact ⟨rfl, rfl, by norm_num⟩

open scoped ENNReal

/-- C9: on the zero stored matrix eigen_decomp hands the length queries an
all-zero eigenvalue vector, and the unguarded sqrt(1/0) in min_length,
max_length and average_length evaluates to infinity in IEEE semantics
(modelled by the extended non-negative reals, where 1/0 is top and the
square root is the 1/2 power): the queries return infinity instead of
failing or being rejected. -/
theorem zero_metric_length_infinite :
    (∀ (d : ℕ) (D : Fin d → ℝ) (Vout : Matrix (Fin d) (Fin d) ℝ),
      eigen_decomp (0 : Matrix (Fin d) (Fin d) ℝ) D Vout → D = 0 ∧ Vout = 0) ∧
    (∀ n : ℕ, min_length (fun x : ℝ≥0∞ => x ^ (2⁻¹ : ℝ))
      (fun _ : Fin (n + 1) => 0) = ⊤) ∧
    (∀ n : ℕ, max_length (fun x : ℝ≥0∞ => x ^ (2⁻¹ : ℝ))
      (fun _ : Fin (n + 1) => 0) = ⊤) ∧
    (∀ n : ℕ, average_length (fun x : ℝ≥0∞ => x ^ (2⁻¹ : ℝ))
      (fun _ : Fin (n + 1) => 0) = ⊤) := by
  have htop : (1 : ℝ≥0∞) / 0 = ⊤ := ENNReal.div_zero one_ne_zero
  have hrpow : (⊤ : ℝ≥0∞) ^ (2⁻¹ : ℝ) = ⊤ :=
    ENNReal.top_rpow_of_pos (by norm_num)
  refine ⟨?_, ?_, ?_, ?_⟩
  · intro d D Vout h
    rcases h with ⟨_, hD, hV⟩ | ⟨hne, _⟩
    · exact ⟨hD, hV⟩
    · exact absurd rfl hne
  · intro n
    have hmax : vecMax (fun _ : Fin (n + 1) => (0 : ℝ≥0∞)) = 0 :=
      le_antisymm (vecMax_le _ _ fun _ => le_rfl) (zero_le _)
    rw [min_length, hmax, htop, hrpow]
  · intro n
    have hmin : vecMin (fun _ : Fin (n + 1) => (0 : ℝ≥0∞)) = 0 :=
      le_antisymm (vecMin_le _ 0) (zero_le _)
    rw [max_length, hmin, htop, hrpow]
  · intro n
    have hsum : (∑ k : Fin (n + 1), (0 : ℝ≥0∞)) = 0 := by simp
    rw [average_length, hsum, ENNReal.zero_div, htop, hrpow]

/-- Witness for C9: the zero 2x2 matrix decomposes to the zero vectors (the
zero branch of eigen_decomp), on which all three length queries are
infinite. -/
theorem zero_metric_length_infinite_witness :
    eigen_decomp (0 : Matrix (Fin 2) (Fin 2) ℝ) 0 0 ∧
    ((0 : Fin 2 → ℝ) = 0 ∧ (0 : Matrix (Fin 2) (Fin 2) ℝ) = 0) ∧
    min_length (fun x : ℝ≥0∞ => x ^ (2⁻¹ : ℝ)) (fun _ : Fin 2 => 0) = ⊤ ∧
    max_length (fun x : ℝ≥0∞ => x ^ (2⁻¹ : ℝ)) (fun _ : Fin 2 => 0) = ⊤ ∧
    average_length (fun x : ℝ≥0∞ => x ^ (2⁻¹ : ℝ)) (fun _ : Fin 2 => 0) = ⊤ := by
  have hdec : eigen_decomp (0 : Matrix (Fin 2) (Fin 2) ℝ) 0 0 :=
    Or.inl ⟨rfl, rfl, rfl⟩
  exact ⟨hdec, zero_metric_length_infinite.1 2 0 0 hdec,
    zero_metric_length_infinite.2.1 1, zero_metric_length_infinite.2.2.1 1,
    zero_metric_length_infinite.2.2.2 1⟩

/-- C10: positive_definiteness and its isotropic variant carry no
unsupported-dimension guard: for every dimension other than 2 they run the
3x3 branch (reading nine buffer entries), unlike eigen_decomp, which for
dimensions outside {2,3} only emits a diagnostic and leaves its outputs
untouched; consequently set_metric invoked with an unsupported dimension
processes the component buffer as a 3x3 matrix instead of being a
diagnosed no-op. -/
theorem unsupported_dimension_behaviour :
    (∀ (dimension : ℕ) (buf out : ℕ → ℝ), dimension ≠ 2 →
      (positive_definiteness dimension buf out ↔ positive_definiteness 3 buf out)) ∧
    (∀ (dimension : ℕ) (buf out : ℕ → ℝ), dimension ≠ 2 →
      (positive_definiteness_iso dimension buf out ↔
        positive_definiteness_iso 3 buf out)) ∧
    (∀ (dimension : ℕ) (buf Din Vin Dout Vout : ℕ → ℝ),
      dimension ≠ 2 → dimension ≠ 3 →
      (eigen_decomp_buf dimension buf Din Vin Dout Vout ↔
        (Dout = Din ∧ Vout = Vin))) ∧
    (∀ (dimension : ℕ) (m : ℕ → ℝ) (r : Option (MetricTensor ℝ))
      (u : MetricTensor ℝ), dimension ≠ 2 →
      MetricTensor.set_metric (⟨0, none⟩ : MetricTensor ℝ) dimension m r →
      r = some u →
      ∃ buf, positive_definiteness 3 (copyBuf dimension m) buf ∧
        u = ⟨dimension, some buf⟩) := by
  have hpd : ∀ (dimension : ℕ) (buf out : ℕ → ℝ), dimension ≠ 2 →
      (positive_definiteness dimension buf out ↔
        positive_definiteness 3 buf out) := by
    intro dimension buf out hd
    rw [positive_definiteness, positive_definiteness, if_neg hd,
      if_neg (by norm_num : (3 : ℕ) ≠ 2)]
  refine ⟨hpd, ?_, ?_, ?_⟩
  · intro dimension buf out hd
    rw [positive_definiteness_iso, positive_definiteness_iso, if_neg hd,
      if_neg (by norm_num : (3 : ℕ) ≠ 2)]
  · intro dimension buf Din Vin Dout Vout h2 h3
    rw [eigen_decomp_buf, if_neg h2, if_neg h3]
  · intro dimension m r u hd h hr
    rw [MetricTensor.set_metric] at h
    obtain ⟨buf, hbuf, hsome⟩ := h
    rw [hsome] at hr
    cases hr
    exact ⟨buf, (hpd dimension _ _ hd).mp hbuf, rfl⟩

/-- Witness for C10 at the unsupported dimension 4: positive_definiteness
behaves as its 3x3 branch, eigen_decomp is a no-op, and set_metric with
dimension 4 processes the buffer as a 3x3 matrix. -/
theorem unsupported_dimension_behaviour_witness :
    (4 : ℕ) ≠ 2 ∧ (4 : ℕ) ≠ 3 ∧
    (positive_definiteness 4 (fun _ => (0 : ℝ)) (fun _ => 0) ↔
      positive_definiteness 3 (fun _ => (0 : ℝ)) (fun _ => 0)) ∧
    (eigen_decomp_buf 4 (fun _ => (0 : ℝ)) (fun _ => 1) (fun _ => 1)
      (fun _ => 1) (fun _ => 1) ↔
      (((fun _ => 1) : ℕ → ℝ) = (fun _ => 1) ∧
       ((fun _ => 1) : ℕ → ℝ) = (fun _ => 1))) ∧
    MetricTensor.set_metric (⟨0, none⟩ : MetricTensor ℝ) 4 (fun _ => 0)
      (some ⟨4, some (copyBuf 4 fun _ => (0 : ℝ))⟩) ∧
    (∃ buf, positive_definiteness 3 (copyBuf 4 (fun _ => (0 : ℝ))) buf ∧
      (⟨4, some (copyBuf 4 fun _ => (0 : ℝ))⟩ : MetricTensor ℝ) =
        ⟨4, some buf⟩) := by
  have h42 : (4 : ℕ) ≠ 2 := by norm_num
  have h43 : (4 : ℕ) ≠ 3 := by norm_num
  have hz3 : toMat3 (copyBuf 4 fun _ => (0 : ℝ)) = 0 := by
    ext i j
    fin_cases i <;> fin_cases j <;> rfl
  have hsm : MetricTensor.set_metric (⟨0, none⟩ : MetricTensor ℝ) 4
      (fun _ => 0) (some ⟨4, some (copyBuf 4 fun _ => (0 : ℝ))⟩) := by
    rw [MetricTensor.set_metric]
    refine ⟨copyBuf 4 fun _ => (0 : ℝ), ?_, rfl⟩
    rw [positive_definiteness, if_neg h42]
    exact Or.inl ⟨hz3, rfl⟩
  exact ⟨h42, h43, unsupported_dimension_behaviour.1 4 _ _ h42,
    unsupported_dimension_behaviour.2.2.1 4 _ _ _ _ _ h42 h43, hsm,
    unsupported_dimension_behaviour.2.2.2 4 _ _ _ h42 hsm rfl⟩

/-- A symmetric positive definite matrix has a non-negative quadratic form
everywhere (including at the zero vector). -/
lemma PosDefM.quad_nonneg {d : ℕ} {N : Matrix (Fin d) (Fin d) α}
    (hN : PosDefM N) (w : Fin d → α) : 0 ≤ quadForm N w := by
  by_cases hw : w = 0
  · subst hw
    unfold quadForm
    rw [Matrix.zero_dotProduct]
  · exact (hN.2 w hw).le

/-- An orthogonal recomposition with positive diagonal is symmetric
positive definite. -/
lemma posDefM_of_orthodecomp {d : ℕ} {V : Matrix (Fin d) (Fin d) α}
    {f : Fin d → α} (horth : Vᵀ * V = 1) (hf : ∀ k, 0 < f k) :
    PosDefM (V * Matrix.diagonal f * Vᵀ) := by
  have hVVt : V * Vᵀ = 1 := Matrix.mul_eq_one_comm.mp horth
  constructor
  · rw [Matrix.transpose_mul, Matrix.transpose_mul, Matrix.transpose_transpose,
      Matrix.diagonal_transpose, Matrix.mul_assoc]
  · intro v hv
    rw [quadForm_VDVt]
    have hy : Vᵀ *ᵥ v ≠ 0 := by
      intro hy0
      apply hv
      have : V *ᵥ (Vᵀ *ᵥ v) = v := by
        rw [Matrix.mulVec_mulVec, hVVt, Matrix.one_mulVec]
      rw [hy0, Matrix.mulVec_zero] at this
      exact this.symm
    obtain ⟨k, hk⟩ := Function.ne_iff.mp hy
    refine Finset.sum_pos' (fun j _ => mul_nonneg (hf j).le (mul_self_nonneg _)) ?_
    exact ⟨k, Finset.mem_univ k, mul_pos (hf k) (mul_self_pos.mpr hk)⟩

/-- C1 (amended): the whiten/clamp/pull-back pipeline of constrain, run on
symmetric positive definite inputs with a symmetric reference eigenvector
matrix, dominates both inputs in preserve mode and is dominated by both in
the other mode: for every direction v the quadratic form of the result
bounds max (resp. min) of the two input quadratic forms.  Without the
symmetry restriction on the solver output for the reference the bound
fails; see the counterexample. -/
theorem constrain_clamp_domination {d : ℕ}
    (Ms Mo Mr Mi : Matrix (Fin d) (Fin d) ℝ)
    (hpair : (Mr = Ms ∧ Mi = Mo) ∨ (Mr = Mo ∧ Mi = Ms))
    (hMs : PosDefM Ms) (hMo : PosDefM Mo)
    (evr : Fin d → ℝ) (Vr : Matrix (Fin d) (Fin d) ℝ)
    (s mu : Fin d → ℝ) (W : Matrix (Fin d) (Fin d) ℝ)
    (h1 : EigenOut Mr evr Vr) (hVr : Vrᵀ = Vr)
    (hs : sqrtSpec s evr)
    (h2 : EigenOut (((whitenMap s Vr)⁻¹)ᵀ * Mi * (whitenMap s Vr)⁻¹) mu W) :
    (∀ v, max (quadForm Ms v) (quadForm Mo v) ≤
      quadForm (whitenClamp true (whitenMap s Vr) W mu) v) ∧
    (∀ v, quadForm (whitenClamp false (whitenMap s Vr) W mu) v ≤
      min (quadForm Ms v) (quadForm Mo v)) := by
  have hMr : PosDefM Mr := by
    rcases hpair with ⟨h, _⟩ | ⟨h, _⟩ <;> rw [h] <;> assumption
  have hMi : PosDefM Mi := by
    rcases hpair with ⟨_, h⟩ | ⟨_, h⟩ <;> rw [h] <;> assumption
  obtain ⟨horth, hdec⟩ := h1 hMr.1
  have hev : ∀ k, 0 < evr k := posdefm_ev_pos hMr h1
  have hspos : ∀ k, 0 < s k := by
    intro k
    rcases (hs k) with ⟨h0, hsq⟩
    rcases lt_or_eq_of_le h0 with h | h
    · exact h
    · exfalso
      have habs : |evr k| = 0 := by rw [← hsq, ← h, mul_zero]
      exact absurd (abs_eq_zero.mp habs) (hev k).ne'
  set F := whitenMap s Vr with hF
  have hdetVr : Vr.det * Vr.det = 1 := by
    have h0 := congrArg Matrix.det horth
    rw [Matrix.det_mul, Matrix.det_transpose, Matrix.det_one] at h0
    exact h0
  have hdetVr0 : Vr.det ≠ 0 := by
    intro h0
    rw [h0, mul_zero] at hdetVr
    exact zero_ne_one hdetVr
  have hdetF : F.det ≠ 0 := by
    rw [hF, whitenMap, Matrix.det_mul, Matrix.det_diagonal]
    exact mul_ne_zero (Finset.prod_ne_zero_iff.mpr fun k _ => (hspos k).ne') hdetVr0
  have hunit : IsUnit F.det := isUnit_iff_ne_zero.mpr hdetF
  have hFinv : F⁻¹ * F = 1 := Matrix.nonsing_inv_mul F hunit
  set Mtil := (F⁻¹)ᵀ * Mi * F⁻¹ with hMtil
  have hMi_eq : Fᵀ * Mtil * F = Mi := by
    have h3 : Fᵀ * (F⁻¹)ᵀ = 1 := by
      rw [← Matrix.transpose_mul, hFinv, Matrix.transpose_one]
    have h4 : Fᵀ * ((F⁻¹)ᵀ * Mi * F⁻¹) * F =
        (Fᵀ * (F⁻¹)ᵀ) * Mi * (F⁻¹ * F) := by
      noncomm_ring
    rw [hMtil, h4, h3, hFinv, Matrix.one_mul, Matrix.mul_one]
  have hMtil_symm : Mtilᵀ = Mtil := by
    rw [hMtil, Matrix.transpose_mul, Matrix.transpose_mul,
      Matrix.transpose_transpose, hMi.1, Matrix.mul_assoc]
  obtain ⟨horthW, hdecW⟩ := h2 hMtil_symm
  have hWWt : W * Wᵀ = 1 := Matrix.mul_eq_one_comm.mp horthW
  have hmu_nonneg : ∀ k, 0 ≤ mu k := by
    intro k
    rw [eigen_entry_quad horthW hdecW k]
    have : quadForm Mtil (fun i => W i k) =
        quadForm Mi (F⁻¹ *ᵥ fun i => W i k) := by
      rw [hMtil, quadForm_congr]
    rw [this]
    exact hMi.quad_nonneg _
  have hFtF : Fᵀ * F = Mr := by
    have hss : (fun k => s k * s k) = evr := by
      funext k
      rw [(hs k).2, abs_of_pos (hev k)]
    have h5 : Fᵀ * F = Vrᵀ * Matrix.diagonal evr * Vr := by
      rw [hF, whitenMap, Matrix.transpose_mul, Matrix.diagonal_transpose]
      have h6 : Vrᵀ * Matrix.diagonal s * (Matrix.diagonal s * Vr) =
          Vrᵀ * (Matrix.diagonal s * Matrix.diagonal s) * Vr := by
        noncomm_ring
      rw [h6, Matrix.diagonal_mul_diagonal, hss]
    rw [h5, hVr, hdec, hVr]
  -- the three quadratic forms in the eigenbasis of the whitened target
  have hqMc : ∀ (p : Bool) v, quadForm (whitenClamp p F W mu) v =
      ∑ k, clampEv p mu k *
        ((Wᵀ *ᵥ (F *ᵥ v)) k * (Wᵀ *ᵥ (F *ᵥ v)) k) := by
    intro p v
    rw [whitenClamp, quadForm_congr, quadForm_VDVt]
  have hqMi : ∀ v, quadForm Mi v =
      ∑ k, mu k * ((Wᵀ *ᵥ (F *ᵥ v)) k * (Wᵀ *ᵥ (F *ᵥ v)) k) := by
    intro v
    rw [← hMi_eq, quadForm_congr, hMtil, ← hMtil, hdecW, quadForm_VDVt]
  have hqMr : ∀ v, quadForm Mr v =
      ∑ k, (1 : ℝ) * ((Wᵀ *ᵥ (F *ᵥ v)) k * (Wᵀ *ᵥ (F *ᵥ v)) k) := by
    intro v
    have hMr_eq : Fᵀ * (W * Matrix.diagonal (fun _ => (1 : ℝ)) * Wᵀ) * F = Mr := by
      rw [Matrix.diagonal_one, Matrix.mul_one, hWWt, Matrix.mul_one, hFtF]
    rw [← hMr_eq, quadForm_congr, quadForm_VDVt]
  have hynn : ∀ v k, 0 ≤ (Wᵀ *ᵥ (F *ᵥ v)) k * (Wᵀ *ᵥ (F *ᵥ v)) k :=
    fun v k => mul_self_nonneg _
  -- preserve mode dominates both, the other mode is dominated by both
  have hMr_le : ∀ v, quadForm Mr v ≤ quadForm (whitenClamp true F W mu) v := by
    intro v
    rw [hqMr v, hqMc true v]
    refine Finset.sum_le_sum fun k _ => ?_
    refine mul_le_mul_of_nonneg_right ?_ (hynn v k)
    simp [clampEv]
  have hMi_le : ∀ v, quadForm Mi v ≤ quadForm (whitenClamp true F W mu) v := by
    intro v
    rw [hqMi v, hqMc true v]
    refine Finset.sum_le_sum fun k _ => ?_
    refine mul_le_mul_of_nonneg_right ?_ (hynn v k)
    simp only [clampEv, if_pos]
    exact le_trans (le_abs_self _) (le_max_right 1 _)
  have hle_Mr : ∀ v, quadForm (whitenClamp false F W mu) v ≤ quadForm Mr v := by
    intro v
    rw [hqMr v, hqMc false v]
    refine Finset.sum_le_sum fun k _ => ?_
    refine mul_le_mul_of_nonneg_right ?_ (hynn v k)
    simp [clampEv]
  have hle_Mi : ∀ v, quadForm (whitenClamp false F W mu) v ≤ quadForm Mi v := by
    intro v
    rw [hqMi v, hqMc false v]
    refine Finset.sum_le_sum fun k _ => ?_
    refine mul_le_mul_of_nonneg_right ?_ (hynn v k)
    simp only [clampEv, if_neg]
    exact le_trans (min_le_right 1 _) (le_of_eq (abs_of_nonneg (hmu_nonneg k)))
  constructor
  · intro v
    refine max_le ?_ ?_
    · rcases hpair with ⟨hr, _⟩ | ⟨_, hi⟩
      · rw [← hr]; exact hMr_le v
      · rw [← hi]; exact hMi_le v
    · rcases hpair with ⟨_, hi⟩ | ⟨hr, _⟩
      · rw [← hi]; exact hMi_le v
      · rw [← hr]; exact hMr_le v
  · intro v
    refine le_min ?_ ?_
    · rcases hpair with ⟨hr, _⟩ | ⟨_, hi⟩
      · rw [← hr]; exact hle_Mr v
      · rw [← hi]; exact hle_Mi v
    · rcases hpair with ⟨_, hi⟩ | ⟨hr, _⟩
      · rw [← hi]; exact hle_Mi v
      · rw [← hr]; exact hle_Mr v

/-- Witness for C1 at scenario S5: constraining diag(4,1) with diag(1,4)
in preserve mode.  The reference eigenvector matrix is the (symmetric)
identity, the whitened target is diag(1/4,4), the clamp keeps (1,4), and
the pulled-back result diag(4,4) dominates both inputs; the computed
result matches the pointwise-tighter expectation [[4,0],[0,4]]. -/
theorem constrain_clamp_domination_witness :
    PosDefM (!![4, 0; 0, 1] : Matrix (Fin 2) (Fin 2) ℝ) ∧
    PosDefM (!![1, 0; 0, 4] : Matrix (Fin 2) (Fin 2) ℝ) ∧
    EigenOut (!![4, 0; 0, 1] : Matrix (Fin 2) (Fin 2) ℝ) ![4, 1] 1 ∧
    (1 : Matrix (Fin 2) (Fin 2) ℝ)ᵀ = 1 ∧
    sqrtSpec (![2, 1] : Fin 2 → ℝ) ![4, 1] ∧
    EigenOut (((whitenMap ![2, 1] (1 : Matrix (Fin 2) (Fin 2) ℝ))⁻¹)ᵀ *
      !![1, 0; 0, 4] * (whitenMap ![2, 1] (1 : Matrix (Fin 2) (Fin 2) ℝ))⁻¹)
      ![4⁻¹, 4] 1 ∧
    (∀ v, max (quadForm (!![4, 0; 0, 1] : Matrix (Fin 2) (Fin 2) ℝ) v)
        (quadForm (!![1, 0; 0, 4] : Matrix (Fin 2) (Fin 2) ℝ) v) ≤
      quadForm (whitenClamp true (whitenMap ![2, 1] 1) 1 ![4⁻¹, 4]) v) ∧
    (∀ v, quadForm (whitenClamp false (whitenMap ![2, 1] 1) 1 ![4⁻¹, 4]) v ≤
      min (quadForm (!![4, 0; 0, 1] : Matrix (Fin 2) (Fin 2) ℝ) v)
        (quadForm (!![1, 0; 0, 4] : Matrix (Fin 2) (Fin 2) ℝ) v)) ∧
    whitenClamp true (whitenMap ![2, 1] (1 : Matrix (Fin 2) (Fin 2) ℝ)) 1 ![4⁻¹, 4] =
      !![4, 0; 0, 4] := by
  have hA : (!![4, 0; 0, 1] : Matrix (Fin 2) (Fin 2) ℝ) = Matrix.diagonal ![4, 1] := by
    ext i j; fin_cases i <;> fin_cases j <;> simp [Matrix.diagonal]
  have hB : (!![1, 0; 0, 4] : Matrix (Fin 2) (Fin 2) ℝ) = Matrix.diagonal ![1, 4] := by
    ext i j; fin_cases i <;> fin_cases j <;> simp [Matrix.diagonal]
  have hpdA : PosDefM (!![4, 0; 0, 1] : Matrix (Fin 2) (Fin 2) ℝ) := by
    rw [hA]
    refine posDefM_diagonal fun i => ?_
    fin_cases i <;> norm_num
  have hpdB : PosDefM (!![1, 0; 0, 4] : Matrix (Fin 2) (Fin 2) ℝ) := by
    rw [hB]
    refine posDefM_diagonal fun i => ?_
    fin_cases i <;> norm_num
  have h1 : EigenOut (!![4, 0; 0, 1] : Matrix (Fin 2) (Fin 2) ℝ) ![4, 1] 1 := by
    intro _
    refine ⟨by simp, ?_⟩
    rw [Matrix.one_mul, Matrix.transpose_one, Matrix.mul_one, hA]
  have hVr : (1 : Matrix (Fin 2) (Fin 2) ℝ)ᵀ = 1 := Matrix.transpose_one
  have hs : sqrtSpec (![2, 1] : Fin 2 → ℝ) ![4, 1] := by
    intro k
    fin_cases k <;> norm_num
  have hFeq : whitenMap ![2, 1] (1 : Matrix (Fin 2) (Fin 2) ℝ) =
      Matrix.diagonal ![2, 1] := by
    rw [whitenMap, Matrix.mul_one]
  have hFinv : (whitenMap ![2, 1] (1 : Matrix (Fin 2) (Fin 2) ℝ))⁻¹ =
      Matrix.diagonal ![2⁻¹, 1] := by
    rw [hFeq]
    apply Matrix.inv_eq_right_inv
    rw [Matrix.diagonal_mul_diagonal]
    ext i j
    fin_cases i <;> fin_cases j <;>
      simp [Matrix.diagonal, Matrix.one_apply]
  have hMtil : ((whitenMap ![2, 1] (1 : Matrix (Fin 2) (Fin 2) ℝ))⁻¹)ᵀ *
      !![1, 0; 0, 4] * (whitenMap ![2, 1] (1 : Matrix (Fin 2) (Fin 2) ℝ))⁻¹ =
      Matrix.diagonal ![4⁻¹, 4] := by
    rw [hFinv, Matrix.diagonal_transpose]
    ext i j
    fin_cases i <;> fin_cases j <;>
      simp [Matrix.mul_apply, Matrix.diagonal, Fin.sum_univ_two] <;> norm_num
  have h2 : EigenOut (((whitenMap ![2, 1] (1 : Matrix (Fin 2) (Fin 2) ℝ))⁻¹)ᵀ *
      !![1, 0; 0, 4] * (whitenMap ![2, 1] (1 : Matrix (Fin 2) (Fin 2) ℝ))⁻¹)
      ![4⁻¹, 4] 1 := by
    intro _
    refine ⟨by simp, ?_⟩
    rw [Matrix.one_mul, Matrix.transpose_one, Matrix.mul_one, hMtil]
  obtain ⟨hdom, hdom2⟩ := constrain_clamp_domination !![4, 0; 0, 1] !![1, 0; 0, 4]
    !![4, 0; 0, 1] !![1, 0; 0, 4] (Or.inl ⟨rfl, rfl⟩) hpdA hpdB
    ![4, 1] 1 ![2, 1] ![4⁻¹, 4] 1 h1 hVr hs h2
  refine ⟨hpdA, hpdB, h1, hVr, hs, h2, hdom, hdom2, ?_⟩
  have hclamp : clampEv true (![4⁻¹, 4] : Fin 2 → ℝ) = ![1, 4] := by
    funext k
    fin_cases k
    · show max 1 |(4⁻¹ : ℝ)| = 1
      rw [abs_of_pos (by norm_num : (0 : ℝ) < 4⁻¹)]
      exact max_eq_left (by norm_num)
    · show max 1 |(4 : ℝ)| = 4
      rw [abs_of_pos (by norm_num : (0 : ℝ) < 4)]
      exact max_eq_right (by norm_num)
  rw [whitenClamp, hclamp, hFeq, Matrix.one_mul, Matrix.transpose_one,
    Matrix.mul_one, Matrix.diagonal_transpose]
  ext i j
  fin_cases i <;> fin_cases j <;>
    simp [Matrix.mul_apply, Matrix.diagonal, Fin.sum_univ_two] <;> norm_num

/-- C1 counterexample: constrain does NOT dominate both inputs in preserve
mode.  A = [[73/25,-36/25],[-36/25,52/25]] (eigenvalues 1 and 4 in the
rotated basis (3/5,4/5), (-4/5,3/5)) constrained with the symmetric
positive definite B = [[73/50,36/50],[36/50,52/50]] = half of the
reflected reference: the aspect ratios tie at 1/4, A stays the reference,
the whitened target is I/2, every eigenvalue clamps to 1, and the stored
result is F^T F = [[73/25,36/25],[36/25,52/25]], whose quadratic form at
v = (1,-1) is 53/25 < 197/25 = v^T A v.  The inequality of the claim fails
for the direction (1,-1) even though both inputs are SPD. -/
theorem constrain_domination_counterexample :
    PosDefM (!![73/25, -36/25; -36/25, 52/25] : Matrix (Fin 2) (Fin 2) ℝ) ∧
    PosDefM (!![73/50, 36/50; 36/50, 52/50] : Matrix (Fin 2) (Fin 2) ℝ) ∧
    constrain (fun _ => false) (!![73/25, -36/25; -36/25, 52/25] : Matrix (Fin 2) (Fin 2) ℝ)
      !![73/50, 36/50; 36/50, 52/50] true !![73/25, 36/25; 36/25, 52/25] ∧
    quadForm (!![73/25, 36/25; 36/25, 52/25] : Matrix (Fin 2) (Fin 2) ℝ) ![1, -1] <
      quadForm (!![73/25, -36/25; -36/25, 52/25] : Matrix (Fin 2) (Fin 2) ℝ) ![1, -1] := by
  have ht1 : (!![3/5, -4/5; 4/5, 3/5] : Matrix (Fin 2) (Fin 2) ℝ)ᵀ =
      !![3/5, 4/5; -4/5, 3/5] := by
    ext i j; fin_cases i <;> fin_cases j <;> rfl
  have ht2 : (!![3/5, 4/5; -4/5, 3/5] : Matrix (Fin 2) (Fin 2) ℝ)ᵀ =
      !![3/5, -4/5; 4/5, 3/5] := by
    ext i j; fin_cases i <;> fin_cases j <;> rfl
  have hd14 : (Matrix.diagonal ![1, 4] : Matrix (Fin 2) (Fin 2) ℝ) = !![1, 0; 0, 4] := by
    ext i j; fin_cases i <;> fin_cases j <;> simp [Matrix.diagonal]
  have hd122 : (Matrix.diagonal ![2⁻¹, 2] : Matrix (Fin 2) (Fin 2) ℝ) =
      !![2⁻¹, 0; 0, 2] := by
    ext i j; fin_cases i <;> fin_cases j <;> simp [Matrix.diagonal]
  have hd12 : (Matrix.diagonal ![1, 2] : Matrix (Fin 2) (Fin 2) ℝ) = !![1, 0; 0, 2] := by
    ext i j; fin_cases i <;> fin_cases j <;> simp [Matrix.diagonal]
  have hdhalf : (Matrix.diagonal ![2⁻¹, 2⁻¹] : Matrix (Fin 2) (Fin 2) ℝ) =
      !![2⁻¹, 0; 0, 2⁻¹] := by
    ext i j; fin_cases i <;> fin_cases j <;> simp [Matrix.diagonal]
  have horth1 : (!![3/5, -4/5; 4/5, 3/5] : Matrix (Fin 2) (Fin 2) ℝ)ᵀ *
      !![3/5, -4/5; 4/5, 3/5] = 1 := by
    rw [ht1, Matrix.mul_fin_two, Matrix.one_fin_two]
    norm_num
  have horth2 : (!![3/5, 4/5; -4/5, 3/5] : Matrix (Fin 2) (Fin 2) ℝ)ᵀ *
      !![3/5, 4/5; -4/5, 3/5] = 1 := by
    rw [ht2, Matrix.mul_fin_two, Matrix.one_fin_two]
    norm_num
  have hdecA : (!![73/25, -36/25; -36/25, 52/25] : Matrix (Fin 2) (Fin 2) ℝ) =
      !![3/5, -4/5; 4/5, 3/5] * Matrix.diagonal ![1, 4] *
        (!![3/5, -4/5; 4/5, 3/5] : Matrix (Fin 2) (Fin 2) ℝ)ᵀ := by
    rw [hd14, ht1, Matrix.mul_fin_two, Matrix.mul_fin_two]
    norm_num
  have hdecB : (!![73/50, 36/50; 36/50, 52/50] : Matrix (Fin 2) (Fin 2) ℝ) =
      !![3/5, 4/5; -4/5, 3/5] * Matrix.diagonal ![2⁻¹, 2] *
        (!![3/5, 4/5; -4/5, 3/5] : Matrix (Fin 2) (Fin 2) ℝ)ᵀ := by
    rw [hd122, ht2, Matrix.mul_fin_two, Matrix.mul_fin_two]
    norm_num
  have hpdA : PosDefM (!![73/25, -36/25; -36/25, 52/25] : Matrix (Fin 2) (Fin 2) ℝ) := by
    rw [hdecA]
    refine posDefM_of_orthodecomp horth1 fun k => ?_
    fin_cases k <;> norm_num
  have hpdB : PosDefM (!![73/50, 36/50; 36/50, 52/50] : Matrix (Fin 2) (Fin 2) ℝ) := by
    rw [hdecB]
    refine posDefM_of_orthodecomp horth2 fun k => ?_
    fin_cases k <;> norm_num
  have hEA : EigenOut (!![73/25, -36/25; -36/25, 52/25] : Matrix (Fin 2) (Fin 2) ℝ)
      ![1, 4] !![3/5, -4/5; 4/5, 3/5] := fun _ => ⟨horth1, hdecA⟩
  have hEB : EigenOut (!![73/50, 36/50; 36/50, 52/50] : Matrix (Fin 2) (Fin 2) ℝ)
      ![2⁻¹, 2] !![3/5, 4/5; -4/5, 3/5] := fun _ => ⟨horth2, hdecB⟩
  have habs1 : (fun k => |(![1, 4] : Fin 2 → ℝ) k|) = ![1, 4] := by
    funext k; fin_cases k <;> simp
  have habs2 : (fun k => |(![2⁻¹, 2] : Fin 2 → ℝ) k|) = ![2⁻¹, 2] := by
    funext k; fin_cases k <;> simp
  have ha1 : aspect (![1, 4] : Fin 2 → ℝ) = 4⁻¹ := by
    rw [aspect, habs1, vecMin_pair, vecMax_pair,
      min_eq_left (by norm_num : (1 : ℝ) ≤ 4),
      max_eq_right (by norm_num : (1 : ℝ) ≤ 4)]
    norm_num
  have ha2 : aspect (![2⁻¹, 2] : Fin 2 → ℝ) = 4⁻¹ := by
    rw [aspect, habs2, vecMin_pair, vecMax_pair,
      min_eq_left (by norm_num : (2⁻¹ : ℝ) ≤ 2),
      max_eq_right (by norm_num : (2⁻¹ : ℝ) ≤ 2)]
    norm_num
  have hFval : whitenMap ![1, 2] (!![3/5, -4/5; 4/5, 3/5] : Matrix (Fin 2) (Fin 2) ℝ) =
      !![3/5, -4/5; 8/5, 6/5] := by
    rw [whitenMap, hd12, Matrix.mul_fin_two]
    norm_num
  have hFinv : (whitenMap ![1, 2] (!![3/5, -4/5; 4/5, 3/5] : Matrix (Fin 2) (Fin 2) ℝ))⁻¹ =
      !![3/5, 2/5; -4/5, 3/10] := by
    rw [hFval]
    apply Matrix.inv_eq_right_inv
    rw [Matrix.mul_fin_two, Matrix.one_fin_two]
    norm_num
  have ht3 : (!![3/5, 2/5; -4/5, 3/10] : Matrix (Fin 2) (Fin 2) ℝ)ᵀ =
      !![3/5, -4/5; 2/5, 3/10] := by
    ext i j; fin_cases i <;> fin_cases j <;> rfl
  have hMtilval : ((whitenMap ![1, 2] (!![3/5, -4/5; 4/5, 3/5] : Matrix (Fin 2) (Fin 2) ℝ))⁻¹)ᵀ *
      !![73/50, 36/50; 36/50, 52/50] *
      (whitenMap ![1, 2] (!![3/5, -4/5; 4/5, 3/5] : Matrix (Fin 2) (Fin 2) ℝ))⁻¹ =
      Matrix.diagonal ![2⁻¹, 2⁻¹] := by
    rw [hFinv, ht3, hdhalf, Matrix.mul_fin_two, Matrix.mul_fin_two]
    norm_num
  have hEMtil : EigenOut
      (((whitenMap ![1, 2] (!![3/5, -4/5; 4/5, 3/5] : Matrix (Fin 2) (Fin 2) ℝ))⁻¹)ᵀ *
        !![73/50, 36/50; 36/50, 52/50] *
        (whitenMap ![1, 2] (!![3/5, -4/5; 4/5, 3/5] : Matrix (Fin 2) (Fin 2) ℝ))⁻¹)
      ![2⁻¹, 2⁻¹] 1 := by
    intro _
    refine ⟨by simp, ?_⟩
    rw [Matrix.one_mul, Matrix.transpose_one, Matrix.mul_one, hMtilval]
  have hclamp : clampEv true (![2⁻¹, 2⁻¹] : Fin 2 → ℝ) = fun _ => 1 := by
    funext k
    fin_cases k <;>
      · show max 1 |(2⁻¹ : ℝ)| = 1
        rw [abs_of_pos (by norm_num : (0 : ℝ) < 2⁻¹)]
        exact max_eq_left (by norm_num)
  have hMc : (!![73/25, 36/25; 36/25, 52/25] : Matrix (Fin 2) (Fin 2) ℝ) =
      whitenClamp true (whitenMap ![1, 2] !![3/5, -4/5; 4/5, 3/5]) 1 ![2⁻¹, 2⁻¹] := by
    rw [whitenClamp, hclamp, Matrix.diagonal_one, Matrix.one_mul,
      Matrix.transpose_one, Matrix.mul_one, Matrix.mul_one, hFval,
      show (!![3/5, -4/5; 8/5, 6/5] : Matrix (Fin 2) (Fin 2) ℝ)ᵀ =
        !![3/5, 8/5; -4/5, 6/5] from by ext i j; fin_cases i <;> fin_cases j <;> rfl,
      Matrix.mul_fin_two]
    norm_num
  have hbody : constrainBody
      (!![73/25, -36/25; -36/25, 52/25] : Matrix (Fin 2) (Fin 2) ℝ)
      !![73/50, 36/50; 36/50, 52/50] true !![73/25, 36/25; 36/25, 52/25] := by
    refine ⟨![1, 4], !![3/5, -4/5; 4/5, 3/5], ![1, 2], ![2⁻¹, 2⁻¹], 1, hEA, ?_, hEMtil, hMc⟩
    intro k
    fin_cases k <;> norm_num
  have hcon : constrain (fun _ => false) (!![73/25, -36/25; -36/25, 52/25] : Matrix (Fin 2) (Fin 2) ℝ)
      !![73/50, 36/50; 36/50, 52/50] true !![73/25, 36/25; 36/25, 52/25] := by
    refine Or.inr ⟨?_, Or.inr ⟨?_, ![1, 4], !![3/5, -4/5; 4/5, 3/5],
      (![2⁻¹, 2] : Fin 2 → ℝ), !![3/5, 4/5; -4/5, 3/5], hEA, hEB, Or.inr ⟨?_, hbody⟩⟩⟩
    · rintro ⟨i, j, -, habs⟩
      simp at habs
    · intro h
      have h00 := congrFun (congrFun h 0) 0
      rw [Matrix.zero_apply] at h00
      norm_num at h00
    · rw [ha1, ha2]
      exact lt_irrefl _
  refine ⟨hpdA, hpdB, hcon, ?_⟩
  simp only [quadForm, Matrix.mulVec, Matrix.dotProduct, Fin.sum_univ_two]
  norm_num

end Pragmatic
